import Mathlib

/-!
Verification of the bp_analyzer code-recovery core against its
natural-language specification.

Python strings are modelled as `List Char`. Each definition below is a
shallow embedding of the corresponding function in
`src/bp_analyzer/xml_common.py` or `src/bp_analyzer/utils.py`; the
Python whitespace set is restricted to its ASCII members, which covers
every character class the analysed functions distinguish.
-/

namespace BP

/-- Python strings as lists of characters. -/
abbrev Str := List Char

/-- Convenience conversion from Lean string literals. -/
def lit (s : String) : Str := s.toList

/-- ASCII whitespace, as recognised by Python's `str.strip`, `str.isspace`
and the `\s` character class. -/
def pySpace (c : Char) : Bool :=
  c = ' ' || c = '\t' || c = '\n' || c = '\r' || c = '\x0b' || c = '\x0c'

/-- Python `str.lstrip()`. -/
def lstrip (l : Str) : Str := l.dropWhile pySpace

/-- Python `str.rstrip()`. -/
def rstrip (l : Str) : Str := (l.reverse.dropWhile pySpace).reverse

/-- Python `str.strip()`. -/
def strip (l : Str) : Str := rstrip (lstrip l)

/-- Python `s.split("\n")`. -/
def splitNl : Str → List Str
  | [] => [[]]
  | c :: cs =>
    if c = '\n' then [] :: splitNl cs
    else match splitNl cs with
      | [] => [[c]]
      | l :: ls => (c :: l) :: ls

/-- Python `"\n".join(lines)`. -/
def joinNl : List Str → Str
  | [] => []
  | [l] => l
  | l :: ls => l ++ '\n' :: joinNl ls

/-- Python `s.replace("\r\n", "\n")`: leftmost, non-overlapping. -/
def replCRLF : Str → Str
  | [] => []
  | [c] => [c]
  | c :: d :: r =>
    if c = '\r' && d = '\n' then '\n' :: replCRLF r
    else c :: replCRLF (d :: r)

/-- Character map used for `s.replace("\r", "\n")`. -/
def crToNl (c : Char) : Char := if c = '\r' then '\n' else c

/-- Embedding of `utils.normalize_code`: unify line endings, right-trim
every line, trim the whole string; empty and `None` inputs give `""`. -/
def normalize_code (s : Str) : Str :=
  if s = [] then []
  else strip (joinNl ((splitNl ((replCRLF s).map crToNl)).map rstrip))

/-- Embedding of `xml_common.count_display_lines`. -/
def count_display_lines (code : Str) : Nat :=
  if code = [] then 0 else code.count '\n' + 1

/-! ## Structural facts about the string primitives -/

/-- A string whose first character (if any) is not whitespace. -/
def headOk : Str → Bool
  | [] => true
  | c :: _ => !pySpace c

/-- A string whose last character (if any) is not whitespace. -/
def lastOk (l : Str) : Bool := headOk l.reverse

/-- Adjacency constraint of right-trimmed text: a whitespace character
other than a newline is never immediately followed by a newline. -/
def adjR (c d : Char) : Prop := ¬(pySpace c ∧ c ≠ '\n' ∧ d = '\n')

/-- All adjacent pairs satisfy `adjR`. -/
def goodAdj (l : Str) : Prop := List.Chain' adjR l

/-- Shape of strings returned by `normalize_code`. -/
def normalizedStr (t : Str) : Prop :=
  t = [] ∨ ('\r' ∉ t ∧ headOk t = true ∧ lastOk t = true ∧ goodAdj t)

@[simp] theorem headOk_nil : headOk [] = true := rfl

@[simp] theorem headOk_cons (c : Char) (cs : Str) : headOk (c :: cs) = !pySpace c := rfl

theorem dropWhile_headOk (l : Str) : headOk (l.dropWhile pySpace) = true := by
  induction l with
  | nil => rfl
  | cons c cs ih =>
    by_cases h : pySpace c
    · simpa [List.dropWhile_cons, h] using ih
    · simp [List.dropWhile_cons, h]

theorem dropWhile_eq_self_of_headOk {l : Str} (h : headOk l = true) :
    l.dropWhile pySpace = l := by
  cases l with
  | nil => rfl
  | cons c cs =>
    simp only [headOk_cons, Bool.not_eq_true'] at h
    simp [List.dropWhile_cons, h]

theorem lstrip_headOk (l : Str) : headOk (lstrip l) = true := dropWhile_headOk l

theorem lstrip_eq_self {l : Str} (h : headOk l = true) : lstrip l = l :=
  dropWhile_eq_self_of_headOk h

theorem rstrip_lastOk (l : Str) : lastOk (rstrip l) = true := by
  simp only [lastOk, rstrip, List.reverse_reverse]
  exact dropWhile_headOk _

theorem rstrip_eq_self {l : Str} (h : lastOk l = true) : rstrip l = l := by
  simp only [lastOk] at h
  simp only [rstrip, dropWhile_eq_self_of_headOk h, List.reverse_reverse]

theorem rstrip_cons (c : Char) (cs : Str) :
    rstrip (c :: cs) =
      if rstrip cs = [] then (if pySpace c then [] else [c]) else c :: rstrip cs := by
  have hiff : rstrip cs = [] ↔ cs.reverse.dropWhile pySpace = [] := by
    simp [rstrip]
  simp only [rstrip, List.reverse_cons, List.dropWhile_append]
  by_cases h : cs.reverse.dropWhile pySpace = []
  · simp [h, hiff, List.dropWhile]
    by_cases hc : pySpace c <;> simp [hc]
  · simp [h, hiff, List.isEmpty_iff]

theorem headOk_rstrip {l : Str} (h : headOk l = true) : headOk (rstrip l) = true := by
  cases l with
  | nil => rfl
  | cons c cs =>
    rw [rstrip_cons]
    by_cases h1 : rstrip cs = []
    · by_cases hc : pySpace c
      · simp [h1, hc]
      · simp [h1, hc]
    · simpa [h1] using h

theorem strip_headOk (l : Str) : headOk (strip l) = true :=
  headOk_rstrip (lstrip_headOk l)

theorem strip_lastOk (l : Str) : lastOk (strip l) = true := rstrip_lastOk _

theorem strip_eq_self {l : Str} (h1 : headOk l = true) (h2 : lastOk l = true) :
    strip l = l := by
  rw [strip, lstrip_eq_self h1, rstrip_eq_self h2]

theorem mem_of_mem_rstrip {l : Str} {c : Char} (h : c ∈ rstrip l) : c ∈ l := by
  have hs := List.dropWhile_suffix (l := l.reverse) pySpace
  have hsub : List.Sublist (rstrip l) l := by
    simpa [rstrip] using (List.IsSuffix.sublist hs).reverse
  exact hsub.subset h

theorem mem_of_mem_lstrip {l : Str} {c : Char} (h : c ∈ lstrip l) : c ∈ l :=
  (List.IsSuffix.sublist (List.dropWhile_suffix pySpace)).mem h

theorem mem_of_mem_strip {l : Str} {c : Char} (h : c ∈ strip l) : c ∈ l :=
  mem_of_mem_lstrip (mem_of_mem_rstrip h)

theorem splitNl_ne_nil (s : Str) : splitNl s ≠ [] := by
  cases s with
  | nil => simp [splitNl]
  | cons c cs =>
    simp only [splitNl]
    split
    · simp
    · split <;> simp

theorem joinNl_cons_cons (c : Char) (l : Str) (ls : List Str) :
    joinNl ((c :: l) :: ls) = c :: joinNl (l :: ls) := by
  cases ls <;> simp [joinNl]

theorem joinNl_splitNl (s : Str) : joinNl (splitNl s) = s := by
  induction s with
  | nil => rfl
  | cons c cs ih =>
    obtain ⟨l, ls, hls⟩ := List.exists_cons_of_ne_nil (splitNl_ne_nil cs)
    by_cases h : c = '\n'
    · subst h
      rw [show splitNl ('\n' :: cs) = [] :: splitNl cs from by simp [splitNl]]
      rw [hls] at ih ⊢
      simpa [joinNl] using ih
    · rw [show splitNl (c :: cs) = (c :: l) :: ls from by
        simp only [splitNl, if_neg h, hls]]
      rw [joinNl_cons_cons, ← hls, ih]

theorem splitNl_no_nl {l : Str} (h : '\n' ∉ l) : splitNl l = [l] := by
  induction l with
  | nil => rfl
  | cons c cs ih =>
    have hc : c ≠ '\n' := fun hh => h (hh ▸ List.mem_cons_self c cs)
    have hcs : '\n' ∉ cs := fun hh => h (List.mem_cons_of_mem _ hh)
    simp only [splitNl, if_neg hc, ih hcs]

theorem splitNl_append {l : Str} (t : Str) (h : '\n' ∉ l) :
    splitNl (l ++ '\n' :: t) = l :: splitNl t := by
  induction l with
  | nil => simp [splitNl]
  | cons c cs ih =>
    have hc : c ≠ '\n' := fun hh => h (hh ▸ List.mem_cons_self c cs)
    have hcs : '\n' ∉ cs := fun hh => h (List.mem_cons_of_mem _ hh)
    simp only [List.cons_append, splitNl, if_neg hc, List.append_eq]
    rw [ih hcs]

theorem splitNl_joinNl {L : List Str} (hne : L ≠ []) (h : ∀ l ∈ L, '\n' ∉ l) :
    splitNl (joinNl L) = L := by
  induction L with
  | nil => exact absurd rfl hne
  | cons l ls ih =>
    cases ls with
    | nil => simpa [joinNl] using splitNl_no_nl (h l (List.mem_cons_self l []))
    | cons x xs =>
      rw [show joinNl (l :: x :: xs) = l ++ '\n' :: joinNl (x :: xs) from rfl]
      rw [splitNl_append _ (h l (List.mem_cons_self _ _))]
      rw [ih (by simp) (fun a ha => h a (List.mem_cons_of_mem _ ha))]

theorem mem_of_mem_splitNl {s l : Str} {c : Char} (hl : l ∈ splitNl s) (hc : c ∈ l) :
    c ∈ s := by
  induction s generalizing l with
  | nil =>
    simp [splitNl] at hl
    subst hl
    simp at hc
  | cons a as ih =>
    by_cases h : a = '\n'
    · subst h
      rw [show splitNl ('\n' :: as) = [] :: splitNl as from by simp [splitNl]] at hl
      rcases List.mem_cons.mp hl with h1 | h1
      · subst h1; simp at hc
      · exact List.mem_cons_of_mem _ (ih h1 hc)
    · obtain ⟨l0, ls, hls⟩ := List.exists_cons_of_ne_nil (splitNl_ne_nil as)
      rw [show splitNl (a :: as) = (a :: l0) :: ls from by
        simp only [splitNl, if_neg h, hls]] at hl
      rcases List.mem_cons.mp hl with h1 | h1
      · subst h1
        rcases List.mem_cons.mp hc with h2 | h2
        · subst h2; exact List.mem_cons_self _ _
        · exact List.mem_cons_of_mem _ (ih (l := l0) (by rw [hls]; simp) h2)
      · exact List.mem_cons_of_mem _ (ih (l := l) (by rw [hls]; simp [h1]) hc)

theorem no_nl_of_mem_splitNl {s l : Str} (hl : l ∈ splitNl s) : '\n' ∉ l := by
  induction s generalizing l with
  | nil =>
    simp [splitNl] at hl
    subst hl
    simp
  | cons a as ih =>
    by_cases h : a = '\n'
    · subst h
      rw [show splitNl ('\n' :: as) = [] :: splitNl as from by simp [splitNl]] at hl
      rcases List.mem_cons.mp hl with h1 | h1
      · subst h1; simp
      · exact ih h1
    · obtain ⟨l0, ls, hls⟩ := List.exists_cons_of_ne_nil (splitNl_ne_nil as)
      rw [show splitNl (a :: as) = (a :: l0) :: ls from by
        simp only [splitNl, if_neg h, hls]] at hl
      rcases List.mem_cons.mp hl with h1 | h1
      · subst h1
        intro hmem
        rcases List.mem_cons.mp hmem with h2 | h2
        · exact h h2.symm
        · exact ih (l := l0) (by rw [hls]; simp) h2
      · exact ih (l := l) (by rw [hls]; simp [h1])

theorem mem_joinNl {L : List Str} {c : Char} (h : c ∈ joinNl L) :
    c = '\n' ∨ ∃ l ∈ L, c ∈ l := by
  induction L with
  | nil => simp [joinNl] at h
  | cons l ls ih =>
    cases ls with
    | nil =>
      simp only [joinNl] at h
      exact Or.inr ⟨l, List.mem_cons_self _ _, h⟩
    | cons x xs =>
      rw [show joinNl (l :: x :: xs) = l ++ '\n' :: joinNl (x :: xs) from rfl] at h
      rcases List.mem_append.mp h with h1 | h1
      · exact Or.inr ⟨l, List.mem_cons_self _ _, h1⟩
      · rcases List.mem_cons.mp h1 with h2 | h2
        · exact Or.inl h2
        · rcases ih h2 with h3 | ⟨a, ha, hca⟩
          · exact Or.inl h3
          · exact Or.inr ⟨a, List.mem_cons_of_mem _ ha, hca⟩

theorem crToNl_ne_cr (a : Char) : crToNl a ≠ '\r' := by
  unfold crToNl
  by_cases h : a = '\r' <;> simp [h]

theorem no_cr_map_crToNl (l : Str) : '\r' ∉ l.map crToNl := by
  intro h
  rcases List.mem_map.mp h with ⟨a, _, ha⟩
  exact crToNl_ne_cr a ha

theorem replCRLF_of_no_cr : ∀ {s : Str}, '\r' ∉ s → replCRLF s = s
  | [], _ => rfl
  | [c], _ => rfl
  | c :: d :: r, h => by
    have hc : c ≠ '\r' := fun hh => h (hh ▸ List.mem_cons_self c (d :: r))
    have hdr : '\r' ∉ d :: r := fun hh => h (List.mem_cons_of_mem _ hh)
    have heq : replCRLF (d :: r) = d :: r := replCRLF_of_no_cr hdr
    simp [replCRLF, hc, heq]

theorem map_crToNl_of_no_cr {s : Str} (h : '\r' ∉ s) : s.map crToNl = s := by
  induction s with
  | nil => rfl
  | cons c cs ih =>
    have hc : c ≠ '\r' := fun hh => h (hh ▸ List.mem_cons_self c cs)
    have hcs : '\r' ∉ cs := fun hh => h (List.mem_cons_of_mem _ hh)
    simp [crToNl, hc, ih hcs]

theorem map_eq_self_of {α : Type} {f : α → α} {l : List α} (h : ∀ x ∈ l, f x = x) :
    l.map f = l := by
  induction l with
  | nil => rfl
  | cons a as ih =>
    simp [h a (List.mem_cons_self a as), ih fun x hx => h x (List.mem_cons_of_mem _ hx)]

@[simp] theorem lastOk_nil : lastOk [] = true := rfl

@[simp] theorem lastOk_single (c : Char) : lastOk [c] = !pySpace c := rfl

theorem lastOk_cons_ne {c : Char} {cs : Str} (h : cs ≠ []) :
    lastOk (c :: cs) = lastOk cs := by
  obtain ⟨b, bs, hbs⟩ := List.exists_cons_of_ne_nil (List.reverse_ne_nil_iff.mpr h)
  unfold lastOk
  rw [List.reverse_cons, hbs, List.cons_append]
  rfl

theorem adjR_nl_left (d : Char) : adjR '\n' d := by
  intro ⟨_, h2, _⟩
  exact h2 rfl

theorem goodAdj_tail {c : Char} {cs : Str} (h : goodAdj (c :: cs)) : goodAdj cs :=
  List.Chain'.tail h

theorem goodAdj_of_no_nl {l : Str} (h : '\n' ∉ l) : goodAdj l := by
  induction l with
  | nil => exact List.chain'_nil
  | cons c cs ih =>
    have hcs : '\n' ∉ cs := fun hh => h (List.mem_cons_of_mem _ hh)
    refine List.chain'_cons'.mpr ⟨?_, ih hcs⟩
    intro y hy
    intro ⟨_, _, h3⟩
    exact hcs (h3 ▸ List.mem_of_mem_head? hy)

theorem goodAdj_append_left {a b : Str} (h : goodAdj (a ++ b)) : goodAdj a :=
  (List.chain'_append.mp h).1

theorem goodAdj_append_right {a b : Str} (h : goodAdj (a ++ b)) : goodAdj b :=
  (List.chain'_append.mp h).2.1

theorem goodAdj_lstrip {l : Str} (h : goodAdj l) : goodAdj (lstrip l) := by
  obtain ⟨w, hw⟩ := List.dropWhile_suffix (l := l) pySpace
  have h2 : goodAdj (w ++ lstrip l) := by
    unfold lstrip
    rw [hw]
    exact h
  exact goodAdj_append_right h2

theorem rstrip_append_eq (l : Str) : ∃ w, rstrip l ++ w = l := by
  obtain ⟨w, hw⟩ := List.dropWhile_suffix (l := l.reverse) pySpace
  refine ⟨w.reverse, ?_⟩
  have := congrArg List.reverse hw
  simpa [rstrip] using this

theorem goodAdj_rstrip {l : Str} (h : goodAdj l) : goodAdj (rstrip l) := by
  obtain ⟨w, hw⟩ := rstrip_append_eq l
  have h2 : goodAdj (rstrip l ++ w) := by
    rw [hw]
    exact h
  exact goodAdj_append_left h2

theorem goodAdj_strip {l : Str} (h : goodAdj l) : goodAdj (strip l) :=
  goodAdj_rstrip (goodAdj_lstrip h)

theorem splitNl_lastOk {t : Str} (hadj : goodAdj t) (hlast : lastOk t = true) :
    ∀ l ∈ splitNl t, lastOk l = true := by
  induction t with
  | nil =>
    intro l hl
    simp [splitNl] at hl
    subst hl
    rfl
  | cons c cs ih =>
    intro l hl
    by_cases h : c = '\n'
    · subst h
      rw [show splitNl ('\n' :: cs) = [] :: splitNl cs from by simp [splitNl]] at hl
      rcases List.mem_cons.mp hl with h1 | h1
      · subst h1; rfl
      · cases hcs : cs with
        | nil =>
          rw [hcs] at h1
          simp [splitNl] at h1
          subst h1; rfl
        | cons d ds =>
          refine ih (goodAdj_tail hadj) ?_ l (hcs ▸ h1)
          rw [← lastOk_cons_ne (c := '\n') (by simp [hcs])]
          exact hlast
    · obtain ⟨l0, ls, hls⟩ := List.exists_cons_of_ne_nil (splitNl_ne_nil cs)
      rw [show splitNl (c :: cs) = (c :: l0) :: ls from by
        simp only [splitNl, if_neg h, hls]] at hl
      cases hcs : cs with
      | nil =>
        subst hcs
        simp [splitNl] at hls
        rw [hls.1, hls.2] at hl
        simp at hl
        subst hl
        simpa using hlast
      | cons d ds =>
        subst hcs
        have hcs' : (d :: ds : Str) ≠ [] := by simp
        have hlast' : lastOk (d :: ds) = true := by
          rw [← lastOk_cons_ne (c := c) hcs']
          exact hlast
        have hall := ih (goodAdj_tail hadj) hlast'
        rcases List.mem_cons.mp hl with h1 | h1
        · subst h1
          by_cases hl0 : l0 = []
          · subst hl0
            have hd : d = '\n' := by
              by_contra hd
              obtain ⟨l1, ls1, hls1⟩ := List.exists_cons_of_ne_nil (splitNl_ne_nil ds)
              rw [show splitNl (d :: ds) = (d :: l1) :: ls1 from by
                simp only [splitNl, if_neg hd, hls1]] at hls
              injection hls with hh _
              exact List.cons_ne_nil d l1 hh
            have hpair : adjR c d := (List.chain'_cons.mp hadj).1
            rw [lastOk_single, Bool.not_eq_true']
            by_contra hws
            simp only [Bool.not_eq_false] at hws
            exact hpair ⟨hws, h, hd⟩
          · rw [lastOk_cons_ne hl0]
            exact hall l0 (by rw [hls]; simp)
        · exact hall l (by rw [hls]; simp [h1])

theorem goodAdj_joinNl {M : List Str} (hnl : ∀ l ∈ M, '\n' ∉ l)
    (hlast : ∀ l ∈ M, lastOk l = true) : goodAdj (joinNl M) := by
  induction M with
  | nil => exact List.chain'_nil
  | cons l ls ih =>
    cases ls with
    | nil => exact goodAdj_of_no_nl (hnl l (List.mem_cons_self _ _))
    | cons x xs =>
      rw [show joinNl (l :: x :: xs) = l ++ '\n' :: joinNl (x :: xs) from rfl]
      refine List.chain'_append.mpr ⟨goodAdj_of_no_nl (hnl l (List.mem_cons_self _ _)), ?_, ?_⟩
      · refine List.chain'_cons'.mpr ⟨fun y _ => adjR_nl_left y, ?_⟩
        exact ih (fun a ha => hnl a (List.mem_cons_of_mem _ ha))
          (fun a ha => hlast a (List.mem_cons_of_mem _ ha))
      · intro a ha b hb
        have hb' : '\n' = b := by simpa using hb
        subst hb'
        have hws : pySpace a = false := by
          have hla := hlast l (List.mem_cons_self _ _)
          unfold lastOk headOk at hla
          rw [← List.head?_reverse] at ha
          cases hrev : l.reverse with
          | nil => rw [hrev] at ha; simp at ha
          | cons p ps =>
            rw [hrev] at ha hla
            simp at ha
            subst ha
            simpa using hla
        intro ⟨h1, _, _⟩
        rw [hws] at h1
        exact Bool.false_ne_true h1

theorem normalize_code_normalized (s : Str) : normalizedStr (normalize_code s) := by
  by_cases hs : s = []
  · subst hs; exact Or.inl rfl
  by_cases hN : normalize_code s = []
  · exact Or.inl hN
  refine Or.inr ?_
  have hdef : normalize_code s =
      strip (joinNl ((splitNl ((replCRLF s).map crToNl)).map rstrip)) := by
    unfold normalize_code
    rw [if_neg hs]
  constructor
  · intro hmem
    rw [hdef] at hmem
    have h1 := mem_of_mem_strip hmem
    rcases mem_joinNl h1 with h2 | ⟨l, hlm, hcl⟩
    · exact absurd h2 (by decide)
    · rcases List.mem_map.mp hlm with ⟨l0, hl0, rfl⟩
      exact no_cr_map_crToNl _ (mem_of_mem_splitNl hl0 (mem_of_mem_rstrip hcl))
  refine ⟨?_, ?_, ?_⟩
  · rw [hdef]; exact strip_headOk _
  · rw [hdef]; exact strip_lastOk _
  · rw [hdef]
    refine goodAdj_strip (goodAdj_joinNl ?_ ?_)
    · intro l hlm hmem
      rcases List.mem_map.mp hlm with ⟨l0, hl0, rfl⟩
      exact no_nl_of_mem_splitNl hl0 (mem_of_mem_rstrip hmem)
    · intro l hlm
      rcases List.mem_map.mp hlm with ⟨l0, _, rfl⟩
      exact rstrip_lastOk _

theorem normalize_code_fixed {t : Str} (h : normalizedStr t) : normalize_code t = t := by
  rcases h with rfl | ⟨hcr, hhead, hlast, hadj⟩
  · rfl
  · by_cases ht : t = []
    · subst ht; rfl
    unfold normalize_code
    rw [if_neg ht, replCRLF_of_no_cr hcr, map_crToNl_of_no_cr hcr]
    rw [map_eq_self_of (fun l hl => rstrip_eq_self (splitNl_lastOk hadj hlast l hl))]
    rw [joinNl_splitNl, strip_eq_self hhead hlast]

/-- C6: normalization is idempotent: for every input string, including the
empty string and strings with mixed CRLF/CR/LF line endings,
`normalize_code (normalize_code x) = normalize_code x`. -/
theorem claim_C6_normalize_idempotent (x : Str) :
    normalize_code (normalize_code x) = normalize_code x :=
  normalize_code_fixed (normalize_code_normalized x)

/-- C2 counterexample: the claim that `display_line_count(text)` equals the
number of line breaks plus one for every string fails for the empty string,
where the code returns `0`, not `1`. -/
theorem claim_C2_counterexample :
    ¬(count_display_lines (lit "") = (lit "").count '\n' + 1) := by decide

/-- C2 (amended): for every nonempty string, `display_line_count` equals the
number of line-break characters plus one with no normalization applied; the
empty string yields `0`. -/
theorem claim_C2_display_line_count (text : Str) (h : text ≠ []) :
    count_display_lines text = text.count '\n' + 1 := by
  unfold count_display_lines
  rw [if_neg h]

theorem claim_C2_witness :
    count_display_lines (lit "a\nb") = (lit "a\nb").count '\n' + 1 :=
  claim_C2_display_line_count (lit "a\nb") (by decide)

/-! ## Language classification (`normalize_language`,
`infer_language_from_code`) -/

/-- Python `str.lower()` restricted to ASCII. -/
def lowerC (c : Char) : Char := c.toLower

/-- Lower-case an entire string. -/
def lowerS (l : Str) : Str := l.map lowerC

/-- The `\w` character class of the Python regexes used by the classifier. -/
def wordChar (c : Char) : Bool :=
  ('a' ≤ c && c ≤ 'z') || ('A' ≤ c && c ≤ 'Z') || ('0' ≤ c && c ≤ '9') || c = '_'

/-- Word boundary after a keyword: end of text or a non-word character. -/
def boundaryAfter : Str → Bool
  | [] => true
  | c :: _ => !wordChar c

/-- A line made of whitespace only. -/
def wsOnly (l : Str) : Bool := l.all pySpace

/-- First non-whitespace character of a string, if any. -/
def firstNonWs (l : Str) : Option Char := (l.dropWhile pySpace).head?

/-- Occurrence of `kw` with a word boundary on both sides; the Boolean
argument carries whether the previous character was a non-word character
(true at a line start, whose preceding character is a newline). -/
def subWordOcc (kw : Str) : Bool → Str → Bool
  | _, [] => false
  | prevNonWord, c :: cs =>
    (prevNonWord && kw.isPrefixOf (c :: cs) && boundaryAfter ((c :: cs).drop kw.length))
      || subWordOcc kw (!wordChar c) cs

/-- Scan a list of lines, giving each predicate the remaining lines as
context (needed because `\s+` in the regexes may cross line breaks). -/
def scanLines (f : Str → List Str → Bool) : List Str → Bool
  | [] => false
  | l :: rest => f l rest || scanLines f rest

/-- Keyword alternatives of the VB-signal regex
`^\s*(dim|set|byval|byref|end if|end sub|end function|select case|end select)\b`. -/
def vbKeywordAlts : List Str :=
  [lit "dim", lit "set", lit "byval", lit "byref", lit "end if", lit "end sub",
   lit "end function", lit "select case", lit "end select"]

/-- One line matches the VB keyword regex (the pattern is anchored at a line
start; `\s*` crossing line breaks always lands on an equivalent anchor). -/
def vbKwLine (l : Str) : Bool :=
  let t := l.dropWhile pySpace
  vbKeywordAlts.any fun kw => kw.isPrefixOf t && boundaryAfter (t.drop kw.length)

/-- Search for the VB keyword signal in lower-cased code. -/
def vbKwSearch (cl : Str) : Bool := (splitNl cl).any vbKwLine

/-- Continuation of the `if\s+.*\bthen\b` match when `\s+` runs past the end
of the anchor line: skip whitespace-only lines, then `then` must occur with
word boundaries in the first line holding any non-whitespace. -/
def vbIfCaseB (rest : List Str) : Bool :=
  match rest.dropWhile wsOnly with
  | [] => false
  | f :: _ => subWordOcc (lit "then") true f

/-- One line (with its following lines) matches
`^\s*if\s+.*\bthen\b` (multiline, case-insensitive on lower-cased text). -/
def vbIfLine (l : Str) (rest : List Str) : Bool :=
  let t := l.dropWhile pySpace
  if (lit "if").isPrefixOf t then
    match t.drop 2 with
    | [] => vbIfCaseB rest
    | r0 :: rtail =>
      (pySpace r0 && subWordOcc (lit "then") (!wordChar r0) rtail)
        || (pySpace r0 && (r0 :: rtail).all pySpace && vbIfCaseB rest)
  else false

/-- Search for the VB `If … Then` signal. -/
def vbIfSearch (cl : Str) : Bool := scanLines vbIfLine (splitNl cl)

/-- Access-modifier alternatives of the C# regex
`^\s*(using\s+\w+|public|private|protected|internal)\b`. -/
def csKeywordAlts : List Str :=
  [lit "public", lit "private", lit "protected", lit "internal"]

/-- The `using\s+\w+` branch after the literal `using`: at least one
whitespace character (a line break counts), then the first non-whitespace
character, possibly on a later line, must be a word character. -/
def csUsingAfter (R : Str) (rest : List Str) : Bool :=
  match R with
  | [] =>
    match firstNonWs (joinNl rest) with
    | some c => rest ≠ [] && wordChar c
    | none => false
  | c :: _ =>
    pySpace c &&
      (match firstNonWs R with
       | some d => wordChar d
       | none =>
         match firstNonWs (joinNl rest) with
         | some d => rest ≠ [] && wordChar d
         | none => false)

/-- One line (with context) matches the C#-signal regex. -/
def csKwLine (l : Str) (rest : List Str) : Bool :=
  let t := l.dropWhile pySpace
  ((lit "using").isPrefixOf t && csUsingAfter (t.drop 5) rest)
    || csKeywordAlts.any fun kw => kw.isPrefixOf t && boundaryAfter (t.drop kw.length)

/-- Search for the C# keyword signal. -/
def csKwSearch (cl : Str) : Bool := scanLines csKwLine (splitNl cl)

/-- Embedding of `xml_common.normalize_language`. -/
def normalize_language (language : Str) : Str :=
  let l := lowerS (strip language)
  if l = lit "vb" ∨ l = lit "vb.net" ∨ l = lit "visualbasic" ∨
      l = lit "visual basic" ∨ l = lit "visual_basic" then lit "VB"
  else if l = lit "c#" ∨ l = lit "csharp" ∨ l = lit "cs" ∨ l = lit "c sharp" then
    lit "C#"
  else if language = [] then lit "Unknown"
  else language

/-- Embedding of `xml_common.infer_language_from_code`. -/
def infer_language_from_code (language code : Str) : Str :=
  let lang := strip language
  if lang ≠ [] ∧ lowerS lang ≠ lit "unknown" then lang
  else
    let cl := lowerS code
    if vbKwSearch cl then lit "VB"
    else if vbIfSearch cl then lit "VB"
    else if csKwSearch cl then lit "C#"
    else if code.contains '{' ∧ code.contains '}' ∧ code.contains ';' then lit "C#"
    else lit "Unknown"

/-- Language resolution as composed on the display path of the details
pipeline: `pretty_print_code` applies `normalize_language` to the value
returned by `infer_language_from_code`. -/
def resolve_language (hint code : Str) : Str :=
  normalize_language (infer_language_from_code hint code)

/-- C3: with the hint string `"vb.net"` (in any letter case), language
resolution yields `"VB"` for every code content: the hint short-circuits
content inference and is canonicalized case-insensitively by the synonym
mapping. -/
theorem claim_C3_hint_vbnet (c : Str) :
    resolve_language (lit "vb.net") c = lit "VB" ∧
      resolve_language (lit "Vb.NET") c = lit "VB" := by
  constructor <;> rfl

/-- C7: content-based inference checks the LanguageA signals first, so any
input whose lower-cased text matches a VB signal classifies as `"VB"` even
if braces and semicolons are present; and input matching no signal at all
classifies as `"Unknown"` (hint absent in both cases). -/
theorem claim_C7_vb_priority (language code : Str)
    (habs : strip language = [] ∨ lowerS (strip language) = lit "unknown") :
    ((vbKwSearch (lowerS code) = true ∨ vbIfSearch (lowerS code) = true) →
        infer_language_from_code language code = lit "VB") ∧
      (vbKwSearch (lowerS code) = false → vbIfSearch (lowerS code) = false →
        csKwSearch (lowerS code) = false →
        ¬(code.contains '{' ∧ code.contains '}' ∧ code.contains ';') →
        infer_language_from_code language code = lit "Unknown") := by
  have hbranch : ¬(strip language ≠ [] ∧ lowerS (strip language) ≠ lit "unknown") := by
    rcases habs with h | h
    · intro ⟨h1, _⟩; exact h1 h
    · intro ⟨_, h2⟩; exact h2 h
  constructor
  · intro hsig
    unfold infer_language_from_code
    rw [if_neg hbranch]
    rcases hsig with h | h
    · rw [if_pos h]
    · by_cases hkw : vbKwSearch (lowerS code)
      · rw [if_pos hkw]
      · rw [if_neg (by simpa using hkw), if_pos h]
  · intro h1 h2 h3 h4
    unfold infer_language_from_code
    rw [if_neg hbranch, if_neg (by simp [h1]), if_neg (by simp [h2]),
      if_neg (by simp [h3]), if_neg h4]

theorem claim_C7_witness :
    infer_language_from_code (lit "") (lit "Dim x As Integer \x7b \x7d ;") = lit "VB" ∧
      infer_language_from_code (lit "") (lit "banana") = lit "Unknown" := by
  constructor
  · exact (claim_C7_vb_priority (lit "") (lit "Dim x As Integer \x7b \x7d ;")
      (Or.inl (by decide))).1 (Or.inl (by decide))
  · exact (claim_C7_vb_priority (lit "") (lit "banana")
      (Or.inl (by decide))).2 (by decide) (by decide) (by decide) (by decide)

/-! ## Blob extraction (`extract_code_from_possible_stage_xml`)

The XML work is done by Python's standard library
(`xml.etree.ElementTree`), which is oracle-modelled: a parse function that
may fail and the fallback pretty printer. Everything else is translated
from the source. -/

/-- Abstract view of a parsed stage element: for each tag name, the first
matching descendant (`none` = no node, `some none` = node without text). -/
structure StageElem where
  find : Str → Option (Option Str)

/-- Oracle for the external XML library. -/
structure XmlOracle where
  parse : Str → Option StageElem
  prettyXml : Str → Str

/-- Candidate inner-code tag names, in source order. -/
def code_candidates : List Str :=
  [lit "code", lit "codetext", lit "script", lit "body", lit "text",
   lit "vb", lit "csharp"]

/-- The candidate-tag loop: first node whose text is truthy and has a
non-blank strip. -/
def findFirstCode (st : StageElem) : List Str → Option Str
  | [] => none
  | tag :: rest =>
    match st.find tag with
    | some (some t) =>
      if t ≠ [] ∧ strip t ≠ [] then some t else findFirstCode st rest
    | _ => findFirstCode st rest

/-- Python `pat in s`. -/
def containsSeq (pat : Str) : Str → Bool
  | [] => pat.isEmpty
  | c :: cs => pat.isPrefixOf (c :: cs) || containsSeq pat cs

/-- The `looks like stage xml` test of the extractor. -/
def looksStageXml (txt : Str) : Bool :=
  (match txt with | '<' :: _ => true | _ => false)
    && (containsSeq (lit "<stage") txt || containsSeq (lit "</stage>") txt)

/-- Embedding of `xml_common.extract_code_from_possible_stage_xml`,
returning `(clean_code, source_kind)`. -/
def extract_code_from_possible_stage_xml (ora : XmlOracle) (code_text : Str) :
    Str × Str :=
  if code_text = [] then ([], lit "raw")
  else
    let txt := strip code_text
    if looksStageXml txt then
      match ora.parse txt with
      | some stage =>
        match findFirstCode stage code_candidates with
        | some t => (normalize_code t, lit "code")
        | none => (ora.prettyXml txt, lit "xml_pretty")
      | none => (normalize_code code_text, lit "raw")
    else (normalize_code code_text, lit "raw")

/-- C5: the blob extractor is total (it is a Lean function, every branch
returns) and for every oracle behaviour the kind is one of `code`,
`xml_pretty`, `raw`; empty input gives `("", raw)`; input that does not
look XML-wrapped, and XML-looking input on which the parse fails, give the
normalized input tagged `raw`. -/
theorem claim_C5_extractor_total (ora : XmlOracle) (input : Str) :
    ((extract_code_from_possible_stage_xml ora input).2 = lit "code" ∨
      (extract_code_from_possible_stage_xml ora input).2 = lit "xml_pretty" ∨
      (extract_code_from_possible_stage_xml ora input).2 = lit "raw") ∧
    (input = [] →
      extract_code_from_possible_stage_xml ora input = ([], lit "raw")) ∧
    (looksStageXml (strip input) = false →
      extract_code_from_possible_stage_xml ora input =
        (normalize_code input, lit "raw")) ∧
    (ora.parse (strip input) = none →
      extract_code_from_possible_stage_xml ora input =
        (normalize_code input, lit "raw")) := by
  refine ⟨?_, ?_, ?_, ?_⟩
  · unfold extract_code_from_possible_stage_xml
    by_cases h0 : input = []
    · simp [h0]
    · rw [if_neg h0]
      by_cases h1 : looksStageXml (strip input)
      · rw [if_pos h1]
        cases hp : ora.parse (strip input) with
        | none => simp
        | some stage =>
          cases hf : findFirstCode stage code_candidates with
          | none => simp [hf]
          | some t => simp [hf]
      · rw [if_neg h1]
        simp
  · intro h0
    unfold extract_code_from_possible_stage_xml
    rw [if_pos h0]
  · intro h1
    unfold extract_code_from_possible_stage_xml
    by_cases h0 : input = []
    · subst h0; rfl
    · rw [if_neg h0, if_neg (by simp [h1])]
  · intro hp
    unfold extract_code_from_possible_stage_xml
    by_cases h0 : input = []
    · subst h0; rfl
    · rw [if_neg h0]
      by_cases h1 : looksStageXml (strip input)
      · rw [if_pos h1, hp]
      · rw [if_neg h1]

/-- Trivial oracle: the parse always fails, pretty-printing is identity. -/
def trivialXmlOracle : XmlOracle := ⟨fun _ => none, fun s => s⟩

theorem claim_C5_witness :
    extract_code_from_possible_stage_xml trivialXmlOracle (lit "<not xml") =
      (normalize_code (lit "<not xml"), lit "raw") :=
  (claim_C5_extractor_total trivialXmlOracle (lit "<not xml")).2.2.1 (by decide)

/-- C10: whenever the extractor returns kind `code` or kind `raw`, the
returned clean code is a fixed point of `normalize_code`. -/
theorem claim_C10_extractor_normalized (ora : XmlOracle) (input : Str)
    (h : (extract_code_from_possible_stage_xml ora input).2 = lit "code" ∨
      (extract_code_from_possible_stage_xml ora input).2 = lit "raw") :
    normalize_code (extract_code_from_possible_stage_xml ora input).1 =
      (extract_code_from_possible_stage_xml ora input).1 := by
  unfold extract_code_from_possible_stage_xml at h ⊢
  by_cases h0 : input = []
  · simp only [h0, if_pos rfl]
    rfl
  rw [if_neg h0] at h ⊢
  by_cases h1 : looksStageXml (strip input)
  · rw [if_pos h1] at h ⊢
    cases hp : ora.parse (strip input) with
    | none =>
      simp only [hp] at h ⊢
      exact normalize_code_fixed (normalize_code_normalized input)
    | some stage =>
      simp only [hp] at h ⊢
      cases hf : findFirstCode stage code_candidates with
      | none =>
        simp only [hf] at h
        rcases h with h | h <;> exact absurd h (by decide)
      | some t =>
        simp only [hf]
        exact normalize_code_fixed (normalize_code_normalized t)
  · rw [if_neg h1]
    exact normalize_code_fixed (normalize_code_normalized input)

theorem claim_C10_witness :
    normalize_code
        (extract_code_from_possible_stage_xml trivialXmlOracle (lit "x \r\n y")).1 =
      (extract_code_from_possible_stage_xml trivialXmlOracle (lit "x \r\n y")).1 :=
  claim_C10_extractor_normalized trivialXmlOracle (lit "x \r\n y")
    (Or.inr (by decide))

/-! ## Findings scanner: the `urls` field of `simple_code_findings` -/

/-- Character class `[^\s\"\'<>]` of the URL regex. -/
def urlChar (c : Char) : Bool :=
  !(pySpace c || c = '"' || c = '\x27' || c = '<' || c = '>')

/-- One attempted match of `https?://[^\s\"\'<>]+` anchored at the start of
`s`; on success the match is a prefix of `s`. -/
def tryUrlAt : Str → Option Str
  | 'h' :: 't' :: 't' :: 'p' :: rest =>
    (match rest with
     | 's' :: ':' :: '/' :: '/' :: r3 =>
       if r3.takeWhile urlChar = [] then none
       else some (lit "https://" ++ r3.takeWhile urlChar)
     | ':' :: '/' :: '/' :: r3 =>
       if r3.takeWhile urlChar = [] then none
       else some (lit "http://" ++ r3.takeWhile urlChar)
     | _ => none)
  | _ => none

theorem tryUrlAt_length {s m : Str} (h : tryUrlAt s = some m) :
    m.length ≤ s.length ∧ 8 ≤ m.length := by
  unfold tryUrlAt at h
  split at h
  · split at h
    · split at h
      · exact absurd h (by simp)
      · rename_i r3 hbody
        have hle : (r3.takeWhile urlChar).length ≤ r3.length :=
          List.Sublist.length_le (List.takeWhile_sublist urlChar)
        have hm : lit "https://" ++ r3.takeWhile urlChar = m := by
          injection h
        subst hm
        simp only [lit, List.length_append, List.length_cons]
        simp
        omega
    · split at h
      · exact absurd h (by simp)
      · rename_i r3 hbody
        have hle : (r3.takeWhile urlChar).length ≤ r3.length :=
          List.Sublist.length_le (List.takeWhile_sublist urlChar)
        have hb1 : 1 ≤ (r3.takeWhile urlChar).length := by
          cases hb : r3.takeWhile urlChar with
          | nil => exact absurd hb hbody
          | cons d ds => simp [hb]
        have hm : lit "http://" ++ r3.takeWhile urlChar = m := by
          injection h
        subst hm
        simp only [lit, List.length_append, List.length_cons]
        simp
        omega
    · exact absurd h (by simp)
  · exact absurd h (by simp)

/-- Scanner loop of `re.findall` for the URL pattern: leftmost,
non-overlapping matches, resuming immediately after each match. The fuel
argument only bounds recursion depth; fuel equal to the string length is
always sufficient because every step consumes at least one character. -/
def findUrlsAux : Nat → Str → List Str
  | 0, _ => []
  | _, [] => []
  | fuel + 1, c :: cs =>
    match tryUrlAt (c :: cs) with
    | some m => m :: findUrlsAux fuel ((c :: cs).drop m.length)
    | none => findUrlsAux fuel cs

/-- Python `re.findall(r"https?://[^\s\"\'<>]+", c)`. -/
def findUrls (s : Str) : List Str := findUrlsAux s.length s

/-- Python string comparison (`sorted` order): lexicographic by code
point. -/
def lexLe : Str → Str → Bool
  | [], _ => true
  | _ :: _, [] => false
  | a :: as, b :: bs => if a = b then lexLe as bs else decide (a < b)

theorem lexLe_total (a b : Str) : (lexLe a b || lexLe b a) = true := by
  induction a generalizing b with
  | nil => simp [lexLe]
  | cons x xs ih =>
    cases b with
    | nil => simp [lexLe]
    | cons y ys =>
      by_cases hxy : x = y
      · subst hxy
        simpa [lexLe] using ih ys
      · have := lt_or_gt_of_ne hxy
        rcases this with h | h
        · simp [lexLe, hxy, h]
        · simp [lexLe, hxy, Ne.symm hxy, not_lt_of_gt h, h]

theorem lexLe_trans (a b c : Str) (hab : lexLe a b = true) (hbc : lexLe b c = true) :
    lexLe a c = true := by
  induction a generalizing b c with
  | nil => simp [lexLe]
  | cons x xs ih =>
    cases b with
    | nil => simp [lexLe] at hab
    | cons y ys =>
      cases c with
      | nil => simp [lexLe] at hbc
      | cons z zs =>
        by_cases hxy : x = y
        · subst hxy
          by_cases hyz : x = z
          · subst hyz
            simp only [lexLe, if_pos rfl] at hab hbc ⊢
            exact ih ys zs hab hbc
          · simp only [lexLe, if_pos rfl] at hab
            simp only [lexLe, if_neg hyz] at hbc ⊢
            exact hbc
        · simp only [lexLe, if_neg hxy, decide_eq_true_eq] at hab
          by_cases hyz : y = z
          · subst hyz
            simp [lexLe, hxy, hab]
          · simp only [lexLe, if_neg hyz, decide_eq_true_eq] at hbc
            have hxz : x < z := lt_trans hab hbc
            simp [lexLe, ne_of_lt hxz, hxz]

/-- The `urls` field of `xml_common.simple_code_findings`:
`sorted(set(re.findall(pattern, c)))[:50]`. -/
def findings_urls (code : Str) : List Str :=
  (((findUrls code).dedup).mergeSort lexLe).take 50

/-- C8: the urls list is duplicate-free, sorted lexicographically, holds at
most 50 entries, contains only matched URLs, and — whenever at most 50
distinct URLs were matched — contains every matched URL; in particular a
URL occurring twice in the content appears exactly once. -/
theorem claim_C8_urls (code : Str) :
    (findings_urls code).Nodup ∧
      List.Pairwise (fun a b => lexLe a b = true) (findings_urls code) ∧
      (findings_urls code).length ≤ 50 ∧
      (∀ u ∈ findings_urls code, u ∈ findUrls code) ∧
      ((findUrls code).dedup.length ≤ 50 →
        ∀ u ∈ findUrls code, u ∈ findings_urls code) := by
  have hperm := List.mergeSort_perm (findUrls code).dedup lexLe
  refine ⟨?_, ?_, ?_, ?_, ?_⟩
  · exact List.Nodup.sublist (List.take_sublist _ _)
      (hperm.nodup_iff.mpr (List.nodup_dedup _))
  · exact List.Pairwise.sublist (List.take_sublist _ _)
      (List.sorted_mergeSort lexLe_trans lexLe_total _)
  · exact List.length_take_le 50 _
  · intro u hu
    have h1 : u ∈ ((findUrls code).dedup).mergeSort lexLe :=
      List.Sublist.subset (List.take_sublist _ _) hu
    exact List.dedup_subset _ (hperm.subset h1)
  · intro hlen u hu
    have hlen2 : (((findUrls code).dedup).mergeSort lexLe).length ≤ 50 := by
      rw [hperm.length_eq]
      exact hlen
    unfold findings_urls
    rw [List.take_of_length_le hlen2]
    exact hperm.mem_iff.mpr (List.mem_dedup.mpr hu)

theorem claim_C8_witness :
    (lit "http://x.io/a") ∈
      findings_urls (lit "see http://x.io/a and http://x.io/a") :=
  (claim_C8_urls (lit "see http://x.io/a and http://x.io/a")).2.2.2.2
    (by decide) _ (by decide)

/-! ## The C# splitter and formatter
(`split_csharp_one_liners`, `pretty_print_csharp_braces`) -/

/-- Python `s.replace("\t", "    ")`. -/
def tabTo4 (s : Str) : Str := s.flatMap fun c => if c = '\t' then lit "    " else [c]

/-- The two sequential brace replacements `{` → `{\n` and `}` → `\n}\n`;
they commute into one pass because the first never produces a `}`. -/
def expandBraces (s : Str) : Str :=
  s.flatMap fun c =>
    if c = '{' then ['{', '\n']
    else if c = '}' then ['\n', '}', '\n']
    else [c]

/-- Attempt to match `\s*kw\s*close` (case-insensitive keyword) at the
start of `s`; on success return the text following the match. -/
def trySubPat (kw : Str) (close : Char) (s : Str) : Option Str :=
  let s1 := s.dropWhile pySpace
  if kw.isPrefixOf (lowerS s1) then
    match (s1.drop kw.length).dropWhile pySpace with
    | c :: r => if c = close then some r else none
    | [] => none
  else none

/-- Python `re.sub` for the patterns `X\s*kw\s*close` with a fixed opening
character: leftmost matches, replacement not rescanned. Fuel equal to the
text length always suffices: every step consumes at least one character. -/
def subPatAux (openC : Char) (kw : Str) (close : Char) (repl : Str) :
    Nat → Str → Str
  | 0, s => s
  | _, [] => []
  | fuel + 1, c :: rest =>
    if c = openC then
      match trySubPat kw close rest with
      | some r => repl ++ subPatAux openC kw close repl fuel r
      | none => c :: subPatAux openC kw close repl fuel rest
    else c :: subPatAux openC kw close repl fuel rest

/-- One `re.sub` application. -/
def subPat (openC : Char) (kw : Str) (close : Char) (repl : Str) (s : Str) : Str :=
  subPatAux openC kw close repl s.length s

/-- The four readability substitutions of `split_csharp_one_liners`, in
source order. -/
def csharpReSubs (s : Str) : Str :=
  subPat '}' (lit "finally") '{' (lit "\x7d\nfinally\n\x7b")
    (subPat '}' (lit "catch") '(' (lit "\x7d\ncatch(")
      (subPat '}' (lit "else") '{' (lit "\x7d\nelse\n\x7b")
        (subPat ')' (lit "else") '{' (lit ")\nelse\n\x7b") s)))

/-- Generic single-character split, Python `line.split(sep)`. -/
def splitOn (sep : Char) : Str → List Str
  | [] => [[]]
  | c :: cs =>
    if c = sep then [] :: splitOn sep cs
    else match splitOn sep cs with
      | [] => [[c]]
      | l :: ls => (c :: l) :: ls

/-- Semicolon statement split of one line: every non-blank
semicolon-terminated segment becomes `segment.strip() + ";"`, a non-blank
trailing segment is kept stripped. -/
def semiParts (line : Str) : List Str :=
  let parts := splitOn ';' line
  (parts.dropLast.filterMap fun p =>
      if strip p = [] then none else some (strip p ++ [';']))
    ++ (match parts.getLast? with
        | some last => if strip last = [] then [] else [strip last]
        | none => [])

/-- The semicolon-splitting loop with its `for(`-header flag. -/
def csSemiLoop (inFor : Bool) : List Str → List Str
  | [] => []
  | line :: rest =>
    let t := strip line
    let inFor1 :=
      if (lit "for(").isPrefixOf (lowerS t) || (lit "for (").isPrefixOf (lowerS t)
      then true else inFor
    let inFor2 := if inFor1 && t.contains ')' then false else inFor1
    if (!inFor2) && line.contains ';' then
      semiParts line ++ csSemiLoop inFor2 rest
    else line :: csSemiLoop inFor2 rest

/-- Python `re.sub(r"\n{3,}", "\n\n", s)`: a run of three or more newlines
collapses to exactly two; the pending count tracks the current run. -/
def emitNls (n : Nat) : Str := if 3 ≤ n then ['\n', '\n'] else List.replicate n '\n'

def collapseNlAux (n : Nat) : Str → Str
  | [] => emitNls n
  | c :: r => if c = '\n' then collapseNlAux (n + 1) r else emitNls n ++ c :: collapseNlAux 0 r

def collapseNl (s : Str) : Str := collapseNlAux 0 s

/-- Embedding of `xml_common.split_csharp_one_liners`. -/
def split_csharp_one_liners (code : Str) : Str :=
  if code = [] then []
  else
    strip (collapseNl (joinNl (csSemiLoop false
      (splitNl (csharpReSubs (expandBraces ((replCRLF code).map crToNl)))))))

/-- The whitespace-collapse scan of `pretty_print_csharp_braces`, with its
inside-string and escape state (`in_str`, `esc`, `prev_space`). -/
def ccollapseAux : Bool → Bool → Bool → Str → Str
  | _, _, _, [] => []
  | true, esc, prevSp, ch :: rest =>
    ch :: (if esc then ccollapseAux true false prevSp rest
           else if ch = '\\' then ccollapseAux true true prevSp rest
           else if ch = '"' then ccollapseAux false false prevSp rest
           else ccollapseAux true false prevSp rest)
  | false, _, prevSp, ch :: rest =>
    if ch = '"' then ch :: ccollapseAux true false false rest
    else if pySpace ch then
      (if prevSp then [] else [' ']) ++ ccollapseAux false false true rest
    else ch :: ccollapseAux false false false rest

/-- `collapse_spaces_outside_strings` of the source, including its final
right trim. -/
def collapse_spaces_outside_strings (line : Str) : Str :=
  rstrip (ccollapseAux false false false line)

/-- Indentation prefix `"    " * indent` (negative counts give the empty
string, as in Python). -/
def indentPrefix (indent : Int) : Str := List.replicate (4 * indent.toNat) ' '

/-- Render one recorded emission of the C# formatter. -/
def renderCs (p : Int × Str) : Str := indentPrefix p.1 ++ p.2

/-- The brace-indentation loop of `pretty_print_csharp_braces`; each
emission is recorded as (indent value used, line content), blank emissions
as `(0, "")`. -/
def ppCsLoop (indent : Int) (out : List (Int × Str)) : List Str → List (Int × Str)
  | [] => out
  | raw :: rest =>
    let line := strip raw
    if line = [] then
      if out ≠ [] ∧ out.getLast? ≠ some ((0 : Int), ([] : Str)) then
        ppCsLoop indent (out ++ [((0 : Int), ([] : Str))]) rest
      else ppCsLoop indent out rest
    else
      let line2 := collapse_spaces_outside_strings line
      let indent1 := if line2.head? = some '}' then max (indent - 1) 0 else indent
      let indent2 := indent1 + (line2.count '{' : Int) - (line2.count '}' : Int)
      ppCsLoop (if indent2 < 0 then 0 else indent2) (out ++ [(indent1, line2)]) rest

/-- Embedding of `xml_common.pretty_print_csharp_braces`. -/
def pretty_print_csharp_braces (code : Str) : Str :=
  let code2 := split_csharp_one_liners code
  if code2 = [] then []
  else strip (joinNl ((ppCsLoop 0 [] (splitNl (tabTo4 code2))).map renderCs))

/-! ## The VB splitter and formatter
(`split_vb_one_liners`, `pretty_print_vb_blocks`) -/

/-- Does the accumulated buffer end in a VB line continuation, i.e. match
`re.search(r"\s+_\s*$", buf)`: optional trailing whitespace, an
underscore, at least one whitespace character before it. -/
def endsCont (buf : Str) : Bool :=
  match buf.reverse.dropWhile pySpace with
  | '_' :: d :: _ => pySpace d
  | _ => false

/-- `re.sub(r"\s+_\s*$", " ", buf)`: drop the trailing whitespace, the
underscore and the whitespace run before it, then append one space. -/
def dropCont (buf : Str) : Str :=
  (((buf.reverse.dropWhile pySpace).drop 1).dropWhile pySpace).reverse ++ [' ']

/-- The continuation-joining loop of `split_vb_one_liners` (step 1). -/
def vbJoinCont (buf : Str) : List Str → List Str
  | [] => if buf ≠ [] then [buf] else []
  | raw :: rest =>
    let line := rstrip raw
    let buf2 := if buf ≠ [] then buf ++ lstrip line else line
    if endsCont buf2 then vbJoinCont (dropCont buf2) rest
    else buf2 :: vbJoinCont [] rest

/-- `split_colons_outside_strings` (step 2): split on `:` outside string
literals, honouring the doubled-quote escape, skipping whitespace right
after each colon and discarding blank segments. Fuel equal to the text
length suffices: every step consumes at least one character. -/
def vbSplitColonsAux (inStr : Bool) (cur : Str) : Nat → Str → List Str
  | _, [] => if strip cur ≠ [] then [strip cur] else []
  | 0, rem => if strip (cur ++ rem) ≠ [] then [strip (cur ++ rem)] else []
  | fuel + 1, '"' :: rest =>
    if inStr then
      match rest with
      | '"' :: rest2 => vbSplitColonsAux true (cur ++ ['"', '"']) fuel rest2
      | _ => vbSplitColonsAux false (cur ++ ['"']) fuel rest
    else vbSplitColonsAux true (cur ++ ['"']) fuel rest
  | fuel + 1, c :: rest =>
    if c = ':' ∧ ¬inStr then
      (if strip cur ≠ [] then [strip cur] else []) ++
        vbSplitColonsAux inStr [] fuel (rest.dropWhile pySpace)
    else vbSplitColonsAux inStr (cur ++ [c]) fuel rest

def split_colons_outside_strings (line : Str) : List Str :=
  vbSplitColonsAux false [] line.length line

/-- The colon pass over all lines (step 2's wrapper loop). -/
def vbColonPass (lines : List Str) : List Str :=
  lines.flatMap fun raw =>
    let r := strip raw
    if r = [] then [([] : Str)] else split_colons_outside_strings r

/-- The `VB_STATEMENT_KEYWORDS` tuple, in source order. -/
def vbStatementKeywords : List Str :=
  [lit "dim ", lit "set ", lit "const ", lit "if ", lit "elseif ", lit "else",
   lit "end if", lit "select case", lit "case ", lit "end select",
   lit "try", lit "catch ", lit "finally", lit "end try",
   lit "for each ", lit "for ", lit "while ", lit "do ", lit "loop",
   lit "next", lit "return", lit "exit sub", lit "exit function",
   lit "exit for", lit "exit while"]

/-- `split_midline_vb_statements` (step 2.5): split before any statement
keyword found outside string literals once a non-empty segment has been
accumulated. -/
def vbSplitMidlineAux (inStr : Bool) (cur : Str) : Nat → Str → List Str
  | _, [] => if strip cur ≠ [] then [strip cur] else []
  | 0, rem => if strip (cur ++ rem) ≠ [] then [strip (cur ++ rem)] else []
  | fuel + 1, '"' :: rest =>
    if inStr then
      match rest with
      | '"' :: rest2 => vbSplitMidlineAux true (cur ++ ['"', '"']) fuel rest2
      | _ => vbSplitMidlineAux false (cur ++ ['"']) fuel rest
    else vbSplitMidlineAux true (cur ++ ['"']) fuel rest
  | fuel + 1, c :: rest =>
    if ¬inStr ∧ cur ≠ [] ∧
        vbStatementKeywords.any (fun kw => kw.isPrefixOf (lowerS (c :: rest))) then
      (if strip cur ≠ [] then [strip cur] else []) ++
        vbSplitMidlineAux inStr [c] fuel rest
    else vbSplitMidlineAux inStr (cur ++ [c]) fuel rest

def split_midline_vb_statements (line : Str) : List Str :=
  vbSplitMidlineAux false [] line.length line

/-- The mid-line pass over all lines (step 2.5's wrapper loop). -/
def vbMidlinePass (lines : List Str) : List Str :=
  lines.flatMap fun raw =>
    let r := strip raw
    if r = [] then [([] : Str)] else split_midline_vb_statements r

/-- Anchor of the single-line `If` regexes: the stripped line starts with
`if` (case-insensitively) followed by one whitespace character (the
mandatory first `\s+`). -/
def vbIfHead (t : Str) : Bool :=
  (lit "if").isPrefixOf (lowerS t) &&
    (match t[2]? with | some c => pySpace c | none => false)

/-- A candidate `then` position for `^if\s+(.*?)\s+then…`: `then` at index
`p`, at least one whitespace immediately before it, and room for the
leading `if`, one whitespace and the lazy group (so `4 ≤ p`). -/
def vbThenAt (t : Str) (p : Nat) : Bool :=
  (lit "then").isPrefixOf (lowerS (t.drop p)) && 4 ≤ p &&
    (match t[p-1]? with | some c => pySpace c | none => false)

/-- Candidate for the no-else regex `^if\s+(.*?)\s+then\s+(.+)$`:
additionally a whitespace after `then` and at least one more character. -/
def vbThen2At (t : Str) (p : Nat) : Bool :=
  vbThenAt t p &&
    (match t[p+4]? with | some c => pySpace c | none => false) &&
    p + 6 ≤ t.length

/-- Candidate `else` position for the three-group regex, given the chosen
`then` position `p`. -/
def vbElseAt (t : Str) (p q : Nat) : Bool :=
  (lit "else").isPrefixOf (lowerS (t.drop q)) && p + 6 ≤ q &&
    (match t[q-1]? with | some c => pySpace c | none => false) &&
    (match t[p+4]? with | some c => pySpace c | none => false) &&
    (match t[q+4]? with | some c => pySpace c | none => false)

/-- Stripped capture of the region `[a, b)` of `t`; the engine's exact
group boundaries inside the surrounding whitespace are erased by the
`.strip()` the source applies to every group. -/
def segStrip (t : Str) (a b : Nat) : Str := strip ((t.drop a).take (b - a))

/-- Match of `^if\s+(.*?)\s+then\s+(.*?)\s+else\s+(.*)$` (IGNORECASE) on a
stripped line, with the backtracking order of the lazy groups: earliest
feasible `then` position, then earliest `else` position. Returns the
stripped captures `(cond, then_part, else_part)`. -/
def vbTryIfElse (t : Str) : Option (Str × Str × Str) :=
  if vbIfHead t then
    match (List.range (t.length + 1)).find? (fun p =>
        vbThenAt t p && (List.range (t.length + 1)).any (fun q => vbElseAt t p q)) with
    | some p =>
      match (List.range (t.length + 1)).find? (fun q => vbElseAt t p q) with
      | some q => some (segStrip t 2 p, segStrip t (p + 4) q, strip (t.drop (q + 4)))
      | none => none
    | none => none
  else none

/-- Match of `^if\s+(.*?)\s+then\s+(.+)$` (IGNORECASE) on a stripped line,
returning the stripped captures `(cond, then_part)`. -/
def vbTryIfThen (t : Str) : Option (Str × Str) :=
  if vbIfHead t then
    match (List.range (t.length + 1)).find? (fun p => vbThen2At t p) with
    | some p => some (segStrip t 2 p, strip (t.drop (p + 4)))
    | none => none
  else none

/-- Step 3 of `split_vb_one_liners`: expand single-line `If` statements
into blocks. -/
def vbIfExpand (lines : List Str) : List Str :=
  lines.flatMap fun rawLine =>
    let t := strip rawLine
    if t = [] then [([] : Str)]
    else
      match vbTryIfElse t with
      | some (cond, thenPart, elsePart) =>
        [lit "If " ++ cond ++ lit " Then", lit "    " ++ thenPart, lit "Else",
         lit "    " ++ elsePart, lit "End If"]
      | none =>
        match vbTryIfThen t with
        | some (cond, thenPart) =>
          if !(lit "then").isSuffixOf (lowerS t) then
            [lit "If " ++ cond ++ lit " Then", lit "    " ++ thenPart, lit "End If"]
          else [t]
        | none => [t]

/-- Embedding of `xml_common.split_vb_one_liners`. -/
def split_vb_one_liners (code : Str) : Str :=
  if code = [] then []
  else
    strip (collapseNl (joinNl (vbIfExpand (vbMidlinePass (vbColonPass
      (vbJoinCont [] (splitNl ((replCRLF code).map crToNl))))))))

/-- Block terminators of `pretty_print_vb_blocks`. -/
def vbEnders : List Str :=
  [lit "end if", lit "end sub", lit "end function", lit "end select",
   lit "end try", lit "next", lit "loop", lit "wend", lit "end while",
   lit "end with"]

/-- Block openers of `pretty_print_vb_blocks`. -/
def vbStarters : List Str :=
  [lit "if ", lit "select case", lit "try", lit "for ", lit "while ",
   lit "with ", lit "do ", lit "sub ", lit "function "]

/-- Mid-block keywords of `pretty_print_vb_blocks`. -/
def vbMiders : List Str :=
  [lit "else", lit "elseif", lit "case ", lit "catch", lit "finally"]

/-- The keyword-block indentation loop of `pretty_print_vb_blocks`;
`max(indent - 1, 0)` is Nat subtraction. -/
def vbFold (indent : Nat) : List Str → List Str
  | [] => []
  | raw :: rest =>
    let line := strip raw
    if line = [] then ([] : Str) :: vbFold indent rest
    else
      let low := lowerS line
      let ind1 := if vbEnders.any (fun e => e.isPrefixOf low) then indent - 1 else indent
      if vbMiders.any (fun md => md.isPrefixOf low) then
        (List.replicate (4 * (ind1 - 1)) ' ' ++ line) :: vbFold ((ind1 - 1) + 1) rest
      else
        (List.replicate (4 * ind1) ' ' ++ line) ::
          vbFold
            (if vbStarters.any (fun st => st.isPrefixOf low) then
              if (lit "if ").isPrefixOf low ∧ (lit "then").isSuffixOf low then ind1 + 1
              else if (lit "if ").isPrefixOf low ∧ containsSeq (lit " then ") low ∧
                  ¬(lit "then").isSuffixOf low then ind1
              else ind1 + 1
            else ind1)
            rest

/-- Embedding of `xml_common.pretty_print_vb_blocks`. -/
def pretty_print_vb_blocks (code : Str) : Str :=
  let code2 := split_vb_one_liners (normalize_code code)
  if code2 = [] then []
  else strip (joinNl (vbFold 0 (splitNl (tabTo4 code2))))

/-- Embedding of `xml_common.normalize_whitespace`, looping with its blank
run counter. -/
def nwLoop (blankRun : Nat) : List Str → List Str
  | [] => []
  | ln :: rest =>
    if strip ln = [] then
      (if blankRun + 1 ≤ 1 then [([] : Str)] else []) ++ nwLoop (blankRun + 1) rest
    else rstrip ln :: nwLoop 0 rest

def normalize_whitespace (code : Str) : Str :=
  strip (joinNl (nwLoop 0 (splitNl (tabTo4 code))))

/-- Embedding of `xml_common.pretty_print_code`. -/
def pretty_print_code (code language : Str) : Str :=
  let code2 := normalize_code code
  if code2 = [] then []
  else
    let language2 := normalize_language language
    if language2 = lit "C#" then pretty_print_csharp_braces code2
    else if language2 = lit "VB" then pretty_print_vb_blocks code2
    else normalize_whitespace code2

/-- C1: evaluation of the VB pipeline at the spec's test input. The
mid-line keyword splitter (step 2.5 of `split_vb_one_liners`) splits the
line at `Else` before the single-line conditional expansion of step 3
runs, so the expansion's `Else` branch never fires: the output has four
non-empty lines, ending in a dangling `Else y = 2` after `End If`,
instead of the five-line block the specification states. -/
theorem claim_C1_vb_if_else_eval :
    pretty_print_code (lit "If x > 0 Then y = 1 Else y = 2") (lit "VB") =
      lit "If x > 0 Then\n    y = 1\nEnd If\nElse y = 2" := by decide

theorem ppCsLoop_indents_nonneg (lines : List Str) :
    ∀ (indent : Int) (out : List (Int × Str)), 0 ≤ indent →
      (∀ p ∈ out, 0 ≤ p.1) → ∀ p ∈ ppCsLoop indent out lines, 0 ≤ p.1 := by
  induction lines with
  | nil =>
    intro indent out _ hout p hp
    exact hout p hp
  | cons raw rest ih =>
    intro indent out hind hout p hp
    rw [show ppCsLoop indent out (raw :: rest) =
        (let line := strip raw
         if line = [] then
           if out ≠ [] ∧ out.getLast? ≠ some ((0 : Int), ([] : Str)) then
             ppCsLoop indent (out ++ [((0 : Int), ([] : Str))]) rest
           else ppCsLoop indent out rest
         else
           let line2 := collapse_spaces_outside_strings line
           let indent1 := if line2.head? = some '}' then max (indent - 1) 0 else indent
           let indent2 := indent1 + (line2.count '{' : Int) - (line2.count '}' : Int)
           ppCsLoop (if indent2 < 0 then 0 else indent2)
             (out ++ [(indent1, line2)]) rest) from rfl] at hp
    simp only [] at hp
    by_cases hline : strip raw = []
    · rw [if_pos hline] at hp
      by_cases hguard : out ≠ [] ∧ out.getLast? ≠ some ((0 : Int), ([] : Str))
      · rw [if_pos hguard] at hp
        refine ih indent _ hind ?_ p hp
        intro q hq
        rcases List.mem_append.mp hq with h1 | h1
        · exact hout q h1
        · simp at h1
          simp [h1]
      · rw [if_neg hguard] at hp
        exact ih indent out hind hout p hp
    · rw [if_neg hline] at hp
      set line2 := collapse_spaces_outside_strings (strip raw) with hline2
      set indent1 := if line2.head? = some '}' then max (indent - 1) 0 else indent
        with hindent1
      have hind1 : 0 ≤ indent1 := by
        rw [hindent1]
        by_cases hb : line2.head? = some '}'
        · rw [if_pos hb]
          exact le_max_right _ _
        · rw [if_neg hb]
          exact hind
      set indent2 := indent1 + (line2.count '{' : Int) - (line2.count '}' : Int)
        with hindent2
      refine ih _ _ ?_ ?_ p hp
      · by_cases hneg : indent2 < 0
        · rw [if_pos hneg]
        · rw [if_neg hneg]
          exact le_of_not_lt hneg
      · intro q hq
        rcases List.mem_append.mp hq with h1 | h1
        · exact hout q h1
        · simp at h1
          rw [h1]
          exact hind1

/-- C4: the indentation counter of the C# formatter never goes negative —
every recorded emission of the brace-indentation loop carries a
non-negative indent — and the pathological input `}}}code();` formats to
all lines at indent zero (total evaluation, no failure). -/
theorem claim_C4_csharp_indent_nonneg :
    (∀ (code : Str) (p : Int × Str),
        p ∈ ppCsLoop 0 [] (splitNl (tabTo4 (split_csharp_one_liners code))) →
          0 ≤ p.1) ∧
      pretty_print_csharp_braces (lit "\x7d\x7d\x7dcode();") = lit "\x7d\n\n\x7d\n\n\x7d\ncode();" := by
  constructor
  · intro code p hp
    exact ppCsLoop_indents_nonneg _ 0 [] (le_refl 0) (by simp) p hp
  · decide

theorem claim_C4_witness : (0 : Int) ≤ (((0 : Int), lit "\x7d")).1 :=
  claim_C4_csharp_indent_nonneg.1 (lit "\x7d\x7d\x7dcode();") ((0 : Int), lit "\x7d")
    (by decide)

/-! ## Blank-line structure of the pretty-printed output

Two consecutive empty lines in a rendered string are exactly an infix
`"\n\n\n"` (edge cases are excluded separately by the absence of leading
and trailing whitespace). -/

/-- The relation between consecutive emitted lines that rules out two
adjacent empty lines. -/
def notBothEmpty (a b : Str) : Prop := ¬(a = [] ∧ b = [])

theorem containsSeq_append_right {pat b : Str} (a : Str)
    (h : containsSeq pat b = true) : containsSeq pat (a ++ b) = true := by
  induction a with
  | nil => simpa using h
  | cons c cs ih => simp [containsSeq, ih]

theorem isPrefixOf_append_right {pat a : Str} (b : Str)
    (h : pat.isPrefixOf a = true) : pat.isPrefixOf (a ++ b) = true := by
  rw [List.isPrefixOf_iff_prefix] at h ⊢
  exact h.trans (List.prefix_append a b)

theorem containsSeq_append_left {pat a : Str} (b : Str)
    (h : containsSeq pat a = true) : containsSeq pat (a ++ b) = true := by
  induction a with
  | nil =>
    simp only [containsSeq, List.isEmpty_iff] at h
    subst h
    cases b with
    | nil => simp [containsSeq]
    | cons c cs => simp [containsSeq, List.isPrefixOf]
  | cons c cs ih =>
    simp only [containsSeq, Bool.or_eq_true] at h
    rcases h with h | h
    · simp only [List.cons_append, containsSeq, Bool.or_eq_true]
      exact Or.inl (isPrefixOf_append_right b h)
    · simp only [List.cons_append, containsSeq, Bool.or_eq_true]
      exact Or.inr (ih h)

theorem containsSeq_strip {pat s : Str} (h : containsSeq pat (strip s) = true) :
    containsSeq pat s = true := by
  obtain ⟨w, hw⟩ := rstrip_append_eq (lstrip s)
  have h1 : containsSeq pat (lstrip s) = true := by
    rw [← hw]
    exact containsSeq_append_left w h
  obtain ⟨v, hv⟩ := List.dropWhile_suffix (l := s) pySpace
  rw [← hv]
  exact containsSeq_append_right v h1

theorem containsSeq_skip_seg {l s : Str} (h : '\n' ∉ l) :
    containsSeq (lit "\n\n\n") (l ++ s) = containsSeq (lit "\n\n\n") s := by
  induction l with
  | nil => rfl
  | cons c cs ih =>
    have hc : c ≠ '\n' := fun hh => h (hh ▸ List.mem_cons_self c cs)
    have hcs : '\n' ∉ cs := fun hh => h (List.mem_cons_of_mem _ hh)
    have hpre : List.isPrefixOf (lit "\n\n\n") (c :: (cs ++ s)) = false := by
      simp [lit, List.isPrefixOf]
      intro hcc
      exact absurd hcc.symm hc
    calc containsSeq (lit "\n\n\n") ((c :: cs) ++ s)
        = (List.isPrefixOf (lit "\n\n\n") (c :: (cs ++ s))
            || containsSeq (lit "\n\n\n") (cs ++ s)) := rfl
      _ = containsSeq (lit "\n\n\n") s := by rw [hpre, ih hcs]; simp

theorem head_joinNl {y : Str} (ys : List Str) (h : y ≠ []) :
    (joinNl (y :: ys)).head? = y.head? := by
  obtain ⟨c, y', rfl⟩ := List.exists_cons_of_ne_nil h
  rw [joinNl_cons_cons]
  rfl

theorem nnn_not_prefix_one {Z : Str} (h : Z.head? ≠ some '\n') :
    List.isPrefixOf (lit "\n\n\n") ('\n' :: Z) = false := by
  cases Z with
  | nil => decide
  | cons d J =>
    have hd : d ≠ '\n' := fun hh => h (by simp [hh])
    simp [lit, List.isPrefixOf]
    intro hdd
    exact absurd hdd.symm hd

theorem nnn_not_prefix_two {Z : Str} (h : Z.head? ≠ some '\n') :
    List.isPrefixOf (lit "\n\n\n") ('\n' :: '\n' :: Z) = false := by
  cases Z with
  | nil => decide
  | cons d J =>
    have hd : d ≠ '\n' := fun hh => h (by simp [hh])
    simp [lit, List.isPrefixOf]
    intro hdd
    exact absurd hdd.symm hd

theorem nl3_joinNl {M : List Str} (hnl : ∀ l ∈ M, '\n' ∉ l)
    (hc : List.Chain' notBothEmpty M) :
    containsSeq (lit "\n\n\n") (joinNl M) = false := by
  induction M with
  | nil => rfl
  | cons l ls ih =>
    cases ls with
    | nil =>
      have h1 : containsSeq (lit "\n\n\n") (l ++ ([] : Str)) =
          containsSeq (lit "\n\n\n") ([] : Str) :=
        containsSeq_skip_seg (hnl l (List.mem_cons_self _ _))
      simpa [joinNl] using h1
    | cons x xs =>
      have hl : '\n' ∉ l := hnl l (List.mem_cons_self _ _)
      rw [show joinNl (l :: x :: xs) = l ++ '\n' :: joinNl (x :: xs) from rfl]
      rw [containsSeq_skip_seg hl]
      have htail : containsSeq (lit "\n\n\n") (joinNl (x :: xs)) = false :=
        ih (fun a ha => hnl a (List.mem_cons_of_mem _ ha)) (List.Chain'.tail hc)
      have hpre : List.isPrefixOf (lit "\n\n\n") ('\n' :: joinNl (x :: xs)) = false := by
        by_cases hx : x = []
        · subst hx
          cases xs with
          | nil => decide
          | cons y ys =>
            rw [show joinNl (([] : Str) :: y :: ys) = '\n' :: joinNl (y :: ys) from rfl]
            have hy : y ≠ [] := by
              intro hyn
              exact (List.chain'_cons.mp (List.Chain'.tail hc)).1 ⟨rfl, hyn⟩
            refine nnn_not_prefix_two ?_
            rw [head_joinNl ys hy]
            obtain ⟨c, y', rfl⟩ := List.exists_cons_of_ne_nil hy
            have hcy : c ≠ '\n' := by
              intro hcc
              refine hnl (c :: y') ?_ (hcc ▸ List.mem_cons_self _ _)
              exact List.mem_cons_of_mem _
                (List.mem_cons_of_mem _ (List.mem_cons_self _ _))
            simpa using hcy
        · refine nnn_not_prefix_one ?_
          rw [head_joinNl xs hx]
          obtain ⟨c, x', hx2⟩ := List.exists_cons_of_ne_nil hx
          have hcx : c ≠ '\n' := by
            intro hcc
            refine hnl x (List.mem_cons_of_mem _ (List.mem_cons_self _ _)) ?_
            rw [hx2, hcc]
            exact List.mem_cons_self _ _
          rw [hx2]
          simpa using hcx
      rw [show containsSeq (lit "\n\n\n") ('\n' :: joinNl (x :: xs)) =
          (List.isPrefixOf (lit "\n\n\n") ('\n' :: joinNl (x :: xs))
            || containsSeq (lit "\n\n\n") (joinNl (x :: xs))) from rfl]
      rw [hpre, htail]
      rfl

theorem rstrip_eq_nil_iff {l : Str} : rstrip l = [] ↔ ∀ c ∈ l, pySpace c = true := by
  rw [rstrip, List.reverse_eq_nil_iff, List.dropWhile_eq_nil_iff]
  constructor
  · intro h c hc
    exact h c (List.mem_reverse.mpr hc)
  · intro h c hc
    exact h c (List.mem_reverse.mp hc)

theorem strip_eq_nil_iff {l : Str} : strip l = [] ↔ ∀ c ∈ l, pySpace c = true := by
  rw [strip, rstrip_eq_nil_iff]
  constructor
  · intro h c hc
    rw [← List.takeWhile_append_dropWhile (p := pySpace) (l := l)] at hc
    rcases List.mem_append.mp hc with h1 | h1
    · exact List.mem_takeWhile_imp h1
    · exact h c h1
  · intro h c hc
    exact h c (mem_of_mem_lstrip hc)

theorem rstrip_ne_nil_of_strip {l : Str} (h : strip l ≠ []) : rstrip l ≠ [] := by
  intro hr
  exact h (strip_eq_nil_iff.mpr fun c hc => rstrip_eq_nil_iff.mp hr c hc)

theorem nwLoop_head_ne (lines : List Str) : ∀ n, 1 ≤ n →
    (nwLoop n lines).head? ≠ some [] := by
  induction lines with
  | nil => intro n _; simp [nwLoop]
  | cons ln rest ih =>
    intro n hn
    by_cases h : strip ln = []
    · simp only [nwLoop, if_pos h]
      rw [if_neg (by omega)]
      simpa using ih (n + 1) (by omega)
    · simp only [nwLoop, if_neg h]
      intro hc
      simp at hc
      exact rstrip_ne_nil_of_strip h hc

theorem nwLoop_chain (lines : List Str) :
    ∀ n, List.Chain' notBothEmpty (nwLoop n lines) := by
  induction lines with
  | nil => intro n; exact List.chain'_nil
  | cons ln rest ih =>
    intro n
    by_cases h : strip ln = []
    · simp only [nwLoop, if_pos h]
      by_cases hn : n + 1 ≤ 1
      · rw [if_pos hn]
        simp only [List.singleton_append]
        refine List.chain'_cons'.mpr ⟨?_, ih (n + 1)⟩
        intro y hy
        intro ⟨_, hy2⟩
        exact nwLoop_head_ne rest (n + 1) (by omega) (hy2 ▸ hy)
      · rw [if_neg hn]
        simpa using ih (n + 1)
    · simp only [nwLoop, if_neg h]
      refine List.chain'_cons'.mpr ⟨?_, ih 0⟩
      intro y _
      intro ⟨h1, _⟩
      exact rstrip_ne_nil_of_strip h h1

theorem nwLoop_no_nl {lines : List Str} (hl : ∀ l ∈ lines, '\n' ∉ l) :
    ∀ n, ∀ e ∈ nwLoop n lines, '\n' ∉ e := by
  induction lines with
  | nil => intro n e he; simp [nwLoop] at he
  | cons ln rest ih =>
    intro n e he
    have hrest : ∀ l ∈ rest, '\n' ∉ l := fun l h2 => hl l (List.mem_cons_of_mem _ h2)
    by_cases h : strip ln = []
    · simp only [nwLoop, if_pos h] at he
      rcases List.mem_append.mp he with h1 | h1
      · by_cases hn : n + 1 ≤ 1
        · rw [if_pos hn] at h1
          simp at h1
          subst h1
          simp
        · rw [if_neg hn] at h1
          simp at h1
      · exact ih hrest (n + 1) e h1
    · simp only [nwLoop, if_neg h] at he
      rcases List.mem_cons.mp he with h1 | h1
      · subst h1
        intro hmem
        exact hl ln (List.mem_cons_self _ _) (mem_of_mem_rstrip hmem)
      · exact ih hrest 0 e h1

/-- Lines obtained by splitting never contain a newline, and neither do
the tab-expanded versions used by the formatters. -/
theorem splitNl_tab_no_nl {code : Str} {l : Str}
    (h : l ∈ splitNl (tabTo4 code)) : '\n' ∉ l :=
  no_nl_of_mem_splitNl h

theorem nw_no_nnn (code : Str) :
    containsSeq (lit "\n\n\n") (normalize_whitespace code) = false := by
  by_contra hx
  rw [Bool.not_eq_false] at hx
  have h1 := containsSeq_strip hx
  have h2 := nl3_joinNl (M := nwLoop 0 (splitNl (tabTo4 code)))
    (nwLoop_no_nl (fun l hl => splitNl_tab_no_nl hl) 0) (nwLoop_chain _ 0)
  rw [h1] at h2
  simp at h2

theorem getLast?_mem' {α : Type} {l : List α} {a : α} (h : l.getLast? = some a) :
    a ∈ l := by
  rcases List.mem_getLast?_eq_getLast (x := a) (l := l) h with ⟨hne, rfl⟩
  exact List.getLast_mem hne

theorem ccollapse_mem {c : Char} :
    ∀ (l : Str) (a b pr : Bool), c ∈ ccollapseAux a b pr l → c ∈ l ∨ c = ' ' := by
  intro l
  induction l with
  | nil =>
    intro a b pr h
    cases a <;> simp [ccollapseAux] at h
  | cons ch rest ih =>
    intro a b pr h
    cases a with
    | true =>
      simp only [ccollapseAux] at h
      rcases List.mem_cons.mp h with h1 | h1
      · exact Or.inl (h1 ▸ List.mem_cons_self _ _)
      · split at h1 <;> [skip; split at h1] <;> [skip; skip; split at h1]
        all_goals
          rcases ih _ _ _ h1 with h2 | h2
          · exact Or.inl (List.mem_cons_of_mem _ h2)
          · exact Or.inr h2
    | false =>
      simp only [ccollapseAux] at h
      split at h
      · rcases List.mem_cons.mp h with h1 | h1
        · exact Or.inl (h1 ▸ List.mem_cons_self _ _)
        · rcases ih _ _ _ h1 with h2 | h2
          · exact Or.inl (List.mem_cons_of_mem _ h2)
          · exact Or.inr h2
      · split at h
        · rcases List.mem_append.mp h with h1 | h1
          · split at h1
            · simp at h1
            · simp at h1
              exact Or.inr h1
          · rcases ih _ _ _ h1 with h2 | h2
            · exact Or.inl (List.mem_cons_of_mem _ h2)
            · exact Or.inr h2
        · rcases List.mem_cons.mp h with h1 | h1
          · exact Or.inl (h1 ▸ List.mem_cons_self _ _)
          · rcases ih _ _ _ h1 with h2 | h2
            · exact Or.inl (List.mem_cons_of_mem _ h2)
            · exact Or.inr h2

theorem ccollapse_mem_nonws {c : Char} (hc : pySpace c = false) :
    ∀ (l : Str) (a b pr : Bool), c ∈ l → c ∈ ccollapseAux a b pr l := by
  intro l
  induction l with
  | nil => intro a b pr h; simp at h
  | cons ch rest ih =>
    intro a b pr h
    cases a with
    | true =>
      simp only [ccollapseAux]
      rcases List.mem_cons.mp h with h1 | h1
      · exact h1 ▸ List.mem_cons_self _ _
      · refine List.mem_cons_of_mem _ ?_
        split
        · exact ih _ _ _ h1
        · split
          · exact ih _ _ _ h1
          · split
            · exact ih _ _ _ h1
            · exact ih _ _ _ h1
    | false =>
      simp only [ccollapseAux]
      split
      · rcases List.mem_cons.mp h with h1 | h1
        · exact h1 ▸ List.mem_cons_self _ _
        · exact List.mem_cons_of_mem _ (ih _ _ _ h1)
      · split
        · rename_i hq hws
          rcases List.mem_cons.mp h with h1 | h1
          · rw [h1] at hc
            rw [hws] at hc
            exact absurd hc (by simp)
          · exact List.mem_append_right _ (ih _ _ _ h1)
        · rcases List.mem_cons.mp h with h1 | h1
          · exact h1 ▸ List.mem_cons_self _ _
          · exact List.mem_cons_of_mem _ (ih _ _ _ h1)

theorem collapse_ne_nil {line : Str} (h : strip line ≠ []) :
    collapse_spaces_outside_strings line ≠ [] := by
  have hex : ∃ c ∈ line, pySpace c = false := by
    by_contra hall
    push_neg at hall
    refine h (strip_eq_nil_iff.mpr fun c hc => ?_)
    have := hall c hc
    simpa using this
  obtain ⟨c, hcl, hcw⟩ := hex
  intro hnil
  have h2 : c ∈ ccollapseAux false false false line :=
    ccollapse_mem_nonws hcw line _ _ _ hcl
  have h3 := rstrip_eq_nil_iff.mp hnil c h2
  rw [hcw] at h3
  exact Bool.false_ne_true h3

theorem collapse_no_nl {line : Str} (h : '\n' ∉ line) :
    '\n' ∉ collapse_spaces_outside_strings line := by
  intro hmem
  rcases ccollapse_mem _ _ _ _ (mem_of_mem_rstrip hmem) with h1 | h1
  · exact h h1
  · exact absurd h1 (by decide)

/-- Invariant of the C# indentation loop's accumulator: every entry is the
blank marker or has non-empty content, no entry content holds a newline,
and the rendered entries never put two empty lines side by side. -/
def csInv (out : List (Int × Str)) : Prop :=
  (∀ p ∈ out, p = ((0 : Int), ([] : Str)) ∨ p.2 ≠ []) ∧
    (∀ p ∈ out, '\n' ∉ p.2) ∧
    List.Chain' notBothEmpty (out.map renderCs)

theorem renderCs_ne_nil {p : Int × Str} (h : p.2 ≠ []) : renderCs p ≠ [] := by
  rw [renderCs]
  intro hh
  exact h (List.append_eq_nil.mp hh).2

theorem ppCsLoop_inv (lines : List Str) (hlines : ∀ l ∈ lines, '\n' ∉ l) :
    ∀ (indent : Int) (out : List (Int × Str)), csInv out →
      csInv (ppCsLoop indent out lines) := by
  induction lines with
  | nil => intro indent out hinv; exact hinv
  | cons raw rest ih =>
    intro indent out hinv
    have hrest : ∀ l ∈ rest, '\n' ∉ l := fun l h2 => hlines l (List.mem_cons_of_mem _ h2)
    rw [show ppCsLoop indent out (raw :: rest) =
        (let line := strip raw
         if line = [] then
           if out ≠ [] ∧ out.getLast? ≠ some ((0 : Int), ([] : Str)) then
             ppCsLoop indent (out ++ [((0 : Int), ([] : Str))]) rest
           else ppCsLoop indent out rest
         else
           let line2 := collapse_spaces_outside_strings line
           let indent1 := if line2.head? = some '}' then max (indent - 1) 0 else indent
           let indent2 := indent1 + (line2.count '{' : Int) - (line2.count '}' : Int)
           ppCsLoop (if indent2 < 0 then 0 else indent2)
             (out ++ [(indent1, line2)]) rest) from rfl]
    simp only []
    by_cases hline : strip raw = []
    · rw [if_pos hline]
      by_cases hguard : out ≠ [] ∧ out.getLast? ≠ some ((0 : Int), ([] : Str))
      · rw [if_pos hguard]
        refine ih hrest indent _ ⟨?_, ?_, ?_⟩
        · intro p hp
          rcases List.mem_append.mp hp with h1 | h1
          · exact hinv.1 p h1
          · simp at h1
            exact Or.inl h1
        · intro p hp
          rcases List.mem_append.mp hp with h1 | h1
          · exact hinv.2.1 p h1
          · simp at h1
            rw [h1]
            simp
        · rw [List.map_append]
          refine List.chain'_append.mpr ⟨hinv.2.2, ?_, ?_⟩
          · simp [List.chain'_singleton]
          · intro a ha b hb
            rw [List.getLast?_map] at ha
            cases hq : out.getLast? with
            | none => rw [hq] at ha; simp at ha
            | some q =>
              rw [hq] at ha
              simp at ha
              have hq2 : q ∈ out := getLast?_mem' hq
              rcases hinv.1 q hq2 with h2 | h2
              · exact absurd (h2 ▸ hq) hguard.2
              · intro ⟨ha2, _⟩
                rw [← ha] at ha2
                exact renderCs_ne_nil h2 ha2
      · rw [if_neg hguard]
        exact ih hrest indent out hinv
    · rw [if_neg hline]
      have hnl : '\n' ∉ strip raw := fun hm =>
        hlines raw (List.mem_cons_self _ _) (mem_of_mem_strip hm)
      have hne : collapse_spaces_outside_strings (strip raw) ≠ [] := by
        refine collapse_ne_nil ?_
        rw [strip_eq_self (strip_headOk raw) (strip_lastOk raw)]
        exact hline
      refine ih hrest _ _ ⟨?_, ?_, ?_⟩
      · intro p hp
        rcases List.mem_append.mp hp with h1 | h1
        · exact hinv.1 p h1
        · simp at h1
          rw [h1]
          exact Or.inr hne
      · intro p hp
        rcases List.mem_append.mp hp with h1 | h1
        · exact hinv.2.1 p h1
        · simp at h1
          rw [h1]
          exact collapse_no_nl hnl
      · rw [List.map_append]
        refine List.chain'_append.mpr ⟨hinv.2.2, ?_, ?_⟩
        · simp [List.chain'_singleton]
        · intro a _ b hb
          intro ⟨_, hb3⟩
          simp only [List.map_cons, List.map_nil, List.head?_cons, Option.mem_def,
            Option.some.injEq] at hb
          rw [← hb] at hb3
          exact renderCs_ne_nil hne hb3

theorem cs_no_nnn (code : Str) :
    containsSeq (lit "\n\n\n") (pretty_print_csharp_braces code) = false := by
  unfold pretty_print_csharp_braces
  by_cases h0 : split_csharp_one_liners code = []
  · rw [if_pos h0]
    decide
  · rw [if_neg h0]
    by_contra hx
    rw [Bool.not_eq_false] at hx
    have h1 := containsSeq_strip hx
    have hinv := ppCsLoop_inv (splitNl (tabTo4 (split_csharp_one_liners code)))
      (fun l hl => no_nl_of_mem_splitNl hl) 0 [] ⟨by simp, by simp, List.chain'_nil⟩
    have h2 := nl3_joinNl
      (M := (ppCsLoop 0 [] (splitNl (tabTo4 (split_csharp_one_liners code)))).map renderCs)
      ?_ hinv.2.2
    · rw [h1] at h2
      simp at h2
    · intro l hl hmem
      rcases List.mem_map.mp hl with ⟨p, hp, rfl⟩
      rw [renderCs] at hmem
      rcases List.mem_append.mp hmem with h3 | h3
      · have := List.eq_of_mem_replicate h3
        exact absurd this (by decide)
      · exact hinv.2.1 p hp h3

/-! ## Line structure of the VB splitter output -/

/-- A line consisting solely of whitespace. -/
def allWs (l : Str) : Bool := l.all pySpace

/-- No two adjacent lines that are both blank after stripping (this is
what maps to two adjacent empty emissions of the VB formatter). -/
def R2 (a b : Str) : Prop := ¬(strip a = [] ∧ strip b = [])

/-- Drop trailing whitespace-only lines. -/
def dropEndWs (L : List Str) : List Str := (L.reverse.dropWhile allWs).reverse

/-- Drop leading and trailing whitespace-only lines. -/
def trimBothWs (L : List Str) : List Str := dropEndWs (L.dropWhile allWs)

theorem strip_nil_iff_allWs {l : Str} : strip l = [] ↔ allWs l = true := by
  rw [strip_eq_nil_iff, allWs, List.all_eq_true]

theorem lstrip_idem (l : Str) : lstrip (lstrip l) = lstrip l :=
  lstrip_eq_self (lstrip_headOk l)

theorem strip_lstrip (l : Str) : strip (lstrip l) = strip l := by
  rw [strip, lstrip_idem]
  rfl

theorem allWs_reverse {l : Str} : allWs l.reverse = allWs l := by
  simp [allWs, List.all_eq_true]

theorem strip_reverse_nil {l : Str} : strip l.reverse = [] ↔ strip l = [] := by
  rw [strip_nil_iff_allWs, strip_nil_iff_allWs, allWs_reverse]

theorem dropWhile_head_false {α : Type} {p : α → Bool} {L : List α} {x : α}
    {xs : List α} (h : L.dropWhile p = x :: xs) : p x = false := by
  induction L with
  | nil => simp at h
  | cons a as ih =>
    rw [List.dropWhile_cons] at h
    by_cases ha : p a
    · rw [if_pos ha] at h
      exact ih h
    · rw [if_neg ha] at h
      injection h with h1 _
      rw [← h1]
      simpa using ha

theorem mem_lstrip_of_nonws {l : Str} {c : Char} (hc : pySpace c = false)
    (hm : c ∈ l) : c ∈ lstrip l := by
  induction l with
  | nil => simp at hm
  | cons a as ih =>
    rw [lstrip, List.dropWhile_cons]
    by_cases ha : pySpace a
    · rw [if_pos ha]
      rcases List.mem_cons.mp hm with h1 | h1
      · rw [h1] at hc
        rw [ha] at hc
        exact absurd hc (by simp)
      · exact ih h1
    · rw [if_neg ha]
      exact hm

theorem allWs_lstrip_false {l : Str} (h : allWs l = false) :
    allWs (lstrip l) = false := by
  rw [allWs, List.all_eq_false] at h ⊢
  obtain ⟨c, hcl, hcw⟩ := h
  exact ⟨c, mem_lstrip_of_nonws (by simpa using hcw) hcl, hcw⟩

theorem dropEndWs_cons (a : Str) (B : List Str) :
    dropEndWs (a :: B) =
      if dropEndWs B = [] then (if allWs a then [] else [a])
      else a :: dropEndWs B := by
  have hiff : dropEndWs B = [] ↔ B.reverse.dropWhile allWs = [] := by
    simp [dropEndWs]
  simp only [dropEndWs, List.reverse_cons, List.dropWhile_append]
  by_cases h : B.reverse.dropWhile allWs = []
  · simp [h, hiff, List.dropWhile]
    by_cases ha : allWs a <;> simp [ha]
  · simp [h, hiff, List.isEmpty_iff]

theorem splitNl_lstrip (u : Str) :
    splitNl (lstrip u) =
      (match (splitNl u).dropWhile allWs with
       | [] => [([] : Str)]
       | l :: ls => lstrip l :: ls) := by
  induction u with
  | nil => rfl
  | cons c cs ih =>
    by_cases hw : pySpace c
    · rw [show lstrip (c :: cs) = lstrip cs from by
        simp [lstrip, List.dropWhile_cons, hw]]
      rw [ih]
      by_cases hc : c = '\n'
      · subst hc
        rw [show splitNl ('\n' :: cs) = [] :: splitNl cs from by simp [splitNl]]
        rw [show (([] : Str) :: splitNl cs).dropWhile allWs =
            (splitNl cs).dropWhile allWs from by
          simp [List.dropWhile_cons, allWs]]
      · obtain ⟨l, ls, hls⟩ := List.exists_cons_of_ne_nil (splitNl_ne_nil cs)
        rw [show splitNl (c :: cs) = (c :: l) :: ls from by
          simp only [splitNl, if_neg hc, hls]]
        rw [hls]
        have hcl : allWs (c :: l) = allWs l := by
          rw [allWs, allWs, List.all_cons, hw]
          simp
        by_cases hal : allWs l
        · have h1 : allWs (c :: l) = true := by rw [hcl]; exact hal
          rw [List.dropWhile_cons, List.dropWhile_cons, if_pos h1, if_pos hal]
        · have hal' : allWs l = false := by simpa using hal
          have h1 : allWs (c :: l) = false := by rw [hcl]; exact hal'
          rw [List.dropWhile_cons, List.dropWhile_cons, if_neg (by rw [hal']; simp),
            if_neg (by rw [h1]; simp)]
          show lstrip l :: ls = lstrip (c :: l) :: ls
          rw [show lstrip (c :: l) = lstrip l from by
            simp [lstrip, List.dropWhile_cons, hw]]
    · have hc : c ≠ '\n' := by
        intro hcc
        rw [hcc] at hw
        exact hw (by decide)
      rw [show lstrip (c :: cs) = c :: cs from by
        simp [lstrip, List.dropWhile_cons, hw]]
      obtain ⟨l, ls, hls⟩ := List.exists_cons_of_ne_nil (splitNl_ne_nil cs)
      rw [show splitNl (c :: cs) = (c :: l) :: ls from by
        simp only [splitNl, if_neg hc, hls]]
      have hcl : allWs (c :: l) = false := by
        rw [allWs, List.all_cons]
        simp [hw]
      rw [List.dropWhile_cons, if_neg (by simp [hcl])]
      show (c :: l) :: ls = lstrip (c :: l) :: ls
      rw [show lstrip (c :: l) = c :: l from by
        simp [lstrip, List.dropWhile_cons, hw]]

theorem joinNl_append_single {A : List Str} (y : Str) (h : A ≠ []) :
    joinNl (A ++ [y]) = joinNl A ++ '\n' :: y := by
  induction A with
  | nil => exact absurd rfl h
  | cons a as ih =>
    cases as with
    | nil => simp [joinNl]
    | cons b bs =>
      rw [show (a :: b :: bs) ++ [y] = a :: ((b :: bs) ++ [y]) from rfl]
      rw [show joinNl (a :: (b :: bs ++ [y])) = a ++ '\n' :: joinNl (b :: bs ++ [y])
        from rfl]
      rw [ih (by simp)]
      simp [joinNl]

theorem joinNl_reverse (L : List Str) :
    (joinNl L).reverse = joinNl ((L.map List.reverse).reverse) := by
  induction L with
  | nil => rfl
  | cons l ls ih =>
    cases ls with
    | nil => simp [joinNl]
    | cons x xs =>
      rw [show joinNl (l :: x :: xs) = l ++ '\n' :: joinNl (x :: xs) from rfl]
      rw [List.reverse_append]
      have : ('\n' :: joinNl (x :: xs)).reverse = (joinNl (x :: xs)).reverse ++ ['\n'] := by
        simp
      rw [this, ih]
      rw [show ((l :: x :: xs).map List.reverse).reverse =
          (((x :: xs).map List.reverse).reverse) ++ [l.reverse] from by simp]
      rw [joinNl_append_single _ (by simp)]
      simp

theorem splitNl_reverse (u : Str) :
    splitNl u.reverse = ((splitNl u).map List.reverse).reverse := by
  conv_lhs => rw [← joinNl_splitNl u]
  rw [joinNl_reverse]
  refine splitNl_joinNl ?_ ?_
  · simp
    exact splitNl_ne_nil u
  · intro l hl
    rcases List.mem_map.mp (List.mem_reverse.mp hl) with ⟨l0, hl0, rfl⟩
    intro hmem
    exact no_nl_of_mem_splitNl hl0 (List.mem_reverse.mp hmem)

theorem chainR2_head_replace {l l' : Str} {ls : List Str}
    (hst : strip l' = strip l) (h : List.Chain' R2 (l :: ls)) :
    List.Chain' R2 (l' :: ls) := by
  refine List.chain'_cons'.mpr ⟨?_, (List.chain'_cons'.mp h).2⟩
  intro y hy
  have h2 := (List.chain'_cons'.mp h).1 y hy
  intro ⟨h3, h4⟩
  exact h2 ⟨by rw [← hst]; exact h3, h4⟩

theorem chainR2_lstrip {u : Str}
    (h : List.Chain' R2 ((splitNl u).dropWhile allWs)) :
    List.Chain' R2 (splitNl (lstrip u)) := by
  rw [splitNl_lstrip]
  cases hd : (splitNl u).dropWhile allWs with
  | nil => exact List.chain'_singleton _
  | cons l ls =>
    rw [hd] at h
    exact chainR2_head_replace (strip_lstrip l) h

theorem chainR2_reverse_map {L : List Str} (h : List.Chain' R2 L) :
    List.Chain' R2 ((L.map List.reverse).reverse) := by
  rw [List.chain'_reverse, List.chain'_map]
  refine List.Chain'.imp ?_ h
  intro a b hab
  intro ⟨h1, h2⟩
  exact hab ⟨strip_reverse_nil.mp h2, strip_reverse_nil.mp h1⟩

theorem chainR2_rstrip {u : Str}
    (h : List.Chain' R2 (dropEndWs (splitNl u))) :
    List.Chain' R2 (splitNl (rstrip u)) := by
  rw [show rstrip u = (lstrip u.reverse).reverse from rfl]
  rw [splitNl_reverse (lstrip u.reverse)]
  apply chainR2_reverse_map
  apply chainR2_lstrip
  rw [splitNl_reverse u]
  have h1 : ((splitNl u).map List.reverse).reverse =
      ((splitNl u).reverse).map List.reverse := by
    rw [List.map_reverse]
  rw [h1]
  have hagree : ∀ (L : List Str),
      L.dropWhile (allWs ∘ List.reverse) = L.dropWhile allWs := by
    intro L
    induction L with
    | nil => rfl
    | cons a as ihh =>
      rw [List.dropWhile_cons, List.dropWhile_cons,
        show (allWs ∘ List.reverse) a = allWs a from allWs_reverse, ihh]
  have h2 : (((splitNl u).reverse).map List.reverse).dropWhile allWs =
      (((splitNl u).reverse).dropWhile allWs).map List.reverse := by
    rw [List.dropWhile_map, hagree]
  rw [h2]
  have h3 : ((splitNl u).reverse).dropWhile allWs = (dropEndWs (splitNl u)).reverse := by
    simp [dropEndWs]
  rw [h3]
  have h4 : ((dropEndWs (splitNl u)).reverse).map List.reverse =
      ((dropEndWs (splitNl u)).map List.reverse).reverse := by
    rw [List.map_reverse]
  rw [h4]
  exact chainR2_reverse_map h

theorem chainR2_strip {u : Str}
    (h : List.Chain' R2 (trimBothWs (splitNl u))) :
    List.Chain' R2 (splitNl (strip u)) := by
  rw [show strip u = rstrip (lstrip u) from rfl]
  apply chainR2_rstrip
  rw [splitNl_lstrip]
  unfold trimBothWs at h
  cases hd : (splitNl u).dropWhile allWs with
  | nil =>
    rw [show dropEndWs [([] : Str)] = [] from by decide]
    exact List.chain'_nil
  | cons l ls =>
    rw [hd] at h
    have hlw : allWs l = false := dropWhile_head_false hd
    have hlw' : allWs (lstrip l) = false := allWs_lstrip_false hlw
    rw [dropEndWs_cons] at h ⊢
    by_cases hend : dropEndWs ls = []
    · rw [if_pos hend] at h ⊢
      rw [if_neg (by simp [hlw'])]
      exact List.chain'_singleton _
    · rw [if_neg hend] at h ⊢
      exact chainR2_head_replace (strip_lstrip l) h

/-- Collapsed length of a newline run (`\n{3,}` becomes two). -/
def cEmit (n : Nat) : Nat := if 3 ≤ n then 2 else n

theorem emitNls_eq (n : Nat) : emitNls n = List.replicate (cEmit n) '\n' := by
  unfold emitNls cEmit
  by_cases h : 3 ≤ n
  · simp [h]
  · simp [h]

/-- The line structure of `collapseNl (joinNl M)`, computed entry by entry;
the counter carries the pending newline-run length. -/
def sqLines : Nat → List Str → List Str
  | n, [] => List.replicate (cEmit n) ([] : Str) ++ [([] : Str)]
  | n, [l] => List.replicate (cEmit n) ([] : Str) ++ [l]
  | n, [] :: rest => sqLines (n + 1) rest
  | n, l :: rest => List.replicate (cEmit n) ([] : Str) ++ l :: (sqLines 1 rest).tail

theorem splitNl_replicate_nl (k : Nat) :
    splitNl (List.replicate k '\n') = List.replicate k ([] : Str) ++ [([] : Str)] := by
  induction k with
  | zero => rfl
  | succ m ih => simp [List.replicate_succ, splitNl, ih]

theorem splitNl_replicate_nl_append {l : Str} (k : Nat) (h : '\n' ∉ l) :
    splitNl (List.replicate k '\n' ++ l) = List.replicate k ([] : Str) ++ [l] := by
  induction k with
  | zero => simpa using splitNl_no_nl h
  | succ m ih => simp [List.replicate_succ, splitNl, ih]

theorem splitNl_replicate_mid {l : Str} (k : Nat) (Z : Str) (h : '\n' ∉ l) :
    splitNl (List.replicate k '\n' ++ (l ++ '\n' :: Z)) =
      List.replicate k ([] : Str) ++ l :: splitNl Z := by
  induction k with
  | zero => simpa using splitNl_append Z h
  | succ m ih => simp [List.replicate_succ, splitNl, ih]

theorem collapseNlAux_no_nl_seg {x : Str} (y : Str) (h : '\n' ∉ x) :
    collapseNlAux 0 (x ++ y) = x ++ collapseNlAux 0 y := by
  induction x with
  | nil => rfl
  | cons c cs ih =>
    have hc : c ≠ '\n' := fun hh => h (hh ▸ List.mem_cons_self c cs)
    have hcs : '\n' ∉ cs := fun hh => h (List.mem_cons_of_mem _ hh)
    rw [List.cons_append, show collapseNlAux 0 (c :: (cs ++ y)) =
      (if c = '\n' then collapseNlAux 1 (cs ++ y)
       else emitNls 0 ++ c :: collapseNlAux 0 (cs ++ y)) from rfl]
    rw [if_neg hc, ih hcs]
    rfl

theorem collapseNlAux_seg {x : Str} (y : Str) (n : Nat) (h : '\n' ∉ x)
    (hne : x ≠ []) :
    collapseNlAux n (x ++ y) = emitNls n ++ x ++ collapseNlAux 0 y := by
  obtain ⟨c, cs, rfl⟩ := List.exists_cons_of_ne_nil hne
  have hc : c ≠ '\n' := fun hh => h (hh ▸ List.mem_cons_self c cs)
  have hcs : '\n' ∉ cs := fun hh => h (List.mem_cons_of_mem _ hh)
  rw [List.cons_append, show collapseNlAux n (c :: (cs ++ y)) =
    (if c = '\n' then collapseNlAux (n + 1) (cs ++ y)
     else emitNls n ++ c :: collapseNlAux 0 (cs ++ y)) from rfl]
  rw [if_neg hc, collapseNlAux_no_nl_seg y hcs]
  simp

theorem collapseNlAux_head_nl (X : Str) : ∀ n, 1 ≤ n →
    ∃ Z, collapseNlAux n X = '\n' :: Z := by
  induction X with
  | nil =>
    intro n hn
    refine ⟨emitNls n |>.tail, ?_⟩
    rw [show collapseNlAux n ([] : Str) = emitNls n from rfl, emitNls_eq]
    cases hcn : cEmit n with
    | zero =>
      exfalso
      unfold cEmit at hcn
      by_cases h3 : 3 ≤ n
      · rw [if_pos h3] at hcn; omega
      · rw [if_neg h3] at hcn; omega
    | succ m => simp [List.replicate_succ, emitNls_eq, hcn]
  | cons c cs ih =>
    intro n hn
    by_cases hc : c = '\n'
    · subst hc
      rw [show collapseNlAux n ('\n' :: cs) = collapseNlAux (n + 1) cs from by
        simp [collapseNlAux]]
      exact ih (n + 1) (by omega)
    · rw [show collapseNlAux n (c :: cs) =
        (if c = '\n' then collapseNlAux (n + 1) cs
         else emitNls n ++ c :: collapseNlAux 0 cs) from rfl]
      rw [if_neg hc, emitNls_eq]
      cases hcn : cEmit n with
      | zero =>
        exfalso
        unfold cEmit at hcn
        by_cases h3 : 3 ≤ n
        · rw [if_pos h3] at hcn; omega
        · rw [if_neg h3] at hcn; omega
      | succ m => simp [List.replicate_succ]

theorem splitNl_collapse_joinNl (M : List Str) :
    ∀ n, (∀ l ∈ M, '\n' ∉ l) →
      splitNl (collapseNlAux n (joinNl M)) = sqLines n M := by
  induction M with
  | nil =>
    intro n _
    rw [show joinNl ([] : List Str) = [] from rfl,
      show collapseNlAux n ([] : Str) = emitNls n from rfl, emitNls_eq,
      splitNl_replicate_nl]
    rfl
  | cons l rest ih =>
    intro n hnl
    have hl : '\n' ∉ l := hnl l (List.mem_cons_self _ _)
    have hrest : ∀ a ∈ rest, '\n' ∉ a := fun a ha => hnl a (List.mem_cons_of_mem _ ha)
    cases rest with
    | nil =>
      by_cases hle : l = []
      · subst hle
        rw [show joinNl [([] : Str)] = [] from rfl,
          show collapseNlAux n ([] : Str) = emitNls n from rfl, emitNls_eq,
          splitNl_replicate_nl]
        rfl
      · have hseg := collapseNlAux_seg ([] : Str) n hl hle
        rw [List.append_nil, show collapseNlAux 0 ([] : Str) = ([] : Str) from rfl,
          List.append_nil] at hseg
        rw [show joinNl [l] = l from rfl, hseg, emitNls_eq,
          splitNl_replicate_nl_append _ hl]
        simp [sqLines]
    | cons x rest2 =>
      by_cases hle : l = []
      · subst hle
        rw [show joinNl (([] : Str) :: x :: rest2) = '\n' :: joinNl (x :: rest2)
          from rfl]
        rw [show collapseNlAux n ('\n' :: joinNl (x :: rest2)) =
          collapseNlAux (n + 1) (joinNl (x :: rest2)) from by simp [collapseNlAux]]
        rw [ih (n + 1) hrest]
        rfl
      · obtain ⟨a, as, rfl⟩ := List.exists_cons_of_ne_nil hle
        rw [show joinNl ((a :: as) :: x :: rest2) =
          (a :: as) ++ '\n' :: joinNl (x :: rest2) from rfl]
        rw [collapseNlAux_seg _ n hl hle]
        rw [show collapseNlAux 0 ('\n' :: joinNl (x :: rest2)) =
          collapseNlAux 1 (joinNl (x :: rest2)) from by simp [collapseNlAux]]
        obtain ⟨Z, hZ⟩ := collapseNlAux_head_nl (joinNl (x :: rest2)) 1 (by omega)
        rw [hZ, emitNls_eq, List.append_assoc, splitNl_replicate_mid _ _ hl]
        have hih := ih 1 hrest
        rw [hZ] at hih
        rw [show splitNl ('\n' :: Z) = [] :: splitNl Z from by simp [splitNl]] at hih
        have : splitNl Z = (sqLines 1 (x :: rest2)).tail := by
          rw [← hih]
          rfl
        rw [this]
        rfl

/-- Adjacent blank entries may only be literally empty: a whitespace-only
non-empty entry never neighbours another blank entry. -/
def R1 (a b : Str) : Prop := strip a = [] ∧ strip b = [] → a = [] ∧ b = []

theorem strip_ne_nil_of_nonWs {l : Str} (h : allWs l = false) : strip l ≠ [] := by
  rw [Ne, strip_nil_iff_allWs, h]
  simp

theorem R2_of_left {a b : Str} (h : strip a ≠ []) : R2 a b := fun hc => h hc.1

theorem R2_of_right {a b : Str} (h : strip b ≠ []) : R2 a b := fun hc => h hc.2

theorem cEmit_pos {n : Nat} (hn : 1 ≤ n) : 1 ≤ cEmit n := by
  unfold cEmit
  by_cases h : 3 ≤ n
  · rw [if_pos h]; omega
  · rw [if_neg h]; omega

theorem sqLines_singleton (n : Nat) (l : Str) :
    sqLines n [l] = List.replicate (cEmit n) ([] : Str) ++ [l] := by
  cases l <;> rfl

theorem cEmit_le_two (n : Nat) : cEmit n ≤ 2 := by
  unfold cEmit
  by_cases h : 3 ≤ n
  · rw [if_pos h]
  · rw [if_neg h]; omega

theorem replicate_succ_append {α : Type} (x : α) {k : Nat} (hk : 1 ≤ k)
    (L : List α) :
    List.replicate k x ++ L = x :: (List.replicate (k - 1) x ++ L) := by
  obtain ⟨m, rfl⟩ : ∃ m, k = m + 1 := ⟨k - 1, by omega⟩
  simp [List.replicate_succ]

theorem dropEndWs_all_ws {W : List Str} (h : ∀ w ∈ W, allWs w = true) :
    dropEndWs W = [] := by
  unfold dropEndWs
  rw [List.dropWhile_eq_nil_iff.mpr (fun w hw => h w (List.mem_reverse.mp hw))]
  rfl

theorem dropEndWs_cons_ws {x : Str} {W : List Str} (hx : allWs x = false)
    (h : ∀ w ∈ W, allWs w = true) : dropEndWs (x :: W) = [x] := by
  rw [dropEndWs_cons, dropEndWs_all_ws h, if_pos rfl, if_neg (by simp [hx])]

theorem dropEndWs_append_of_ne (A : List Str) {B : List Str}
    (h : dropEndWs B ≠ []) : dropEndWs (A ++ B) = A ++ dropEndWs B := by
  have hne : B.reverse.dropWhile allWs ≠ [] := by
    intro hc
    apply h
    unfold dropEndWs
    rw [hc]
    rfl
  unfold dropEndWs
  rw [List.reverse_append, List.dropWhile_append]
  simp [hne, List.isEmpty_iff]

theorem dropEndWs_last_nonws (A : List Str) {l : Str} (h : allWs l = false) :
    dropEndWs (A ++ [l]) = A ++ [l] := by
  unfold dropEndWs
  rw [show (A ++ [l]).reverse = l :: A.reverse from by simp]
  rw [List.dropWhile_cons, if_neg (by simp [h])]
  simp

theorem dropEndWs_head {l : Str} (T : List Str) (h : allWs l = false) :
    ∃ T2, dropEndWs (l :: T) = l :: T2 := by
  rw [dropEndWs_cons]
  by_cases hd : dropEndWs T = []
  · rw [if_pos hd, if_neg (by simp [h])]
    exact ⟨[], rfl⟩
  · rw [if_neg hd]
    exact ⟨dropEndWs T, rfl⟩

theorem dropWhile_allWs_append {A : List Str} (B : List Str)
    (h : ∀ l ∈ A, allWs l = true) :
    (A ++ B).dropWhile allWs = B.dropWhile allWs := by
  rw [List.dropWhile_append, List.dropWhile_eq_nil_iff.mpr h]
  simp

theorem trimBothWs_all_ws {L : List Str} (h : ∀ l ∈ L, allWs l = true) :
    trimBothWs L = [] := by
  unfold trimBothWs
  rw [List.dropWhile_eq_nil_iff.mpr h]
  rfl

/-- Prepending a non-whitespace line to the tail of a collapsed run gives
no two adjacent blank lines, once trailing blank lines are dropped. -/
theorem sqLines_tail_chain (rest : List Str) :
    ∀ n x, 1 ≤ n → allWs x = false → List.Chain' R1 rest →
      (2 ≤ n → ∀ h ∈ rest.head?, strip h = [] → h = []) →
      List.Chain' R2 (dropEndWs (x :: (sqLines n rest).tail)) := by
  induction rest with
  | nil =>
    intro n x hn hx _ _
    rw [show sqLines n [] = List.replicate (cEmit n) ([] : Str) ++ [([] : Str)]
      from rfl]
    rw [replicate_succ_append _ (cEmit_pos hn), List.tail_cons]
    rw [dropEndWs_cons_ws hx ?_]
    · exact List.chain'_singleton _
    · intro w hw
      rcases List.mem_append.mp hw with h1 | h1
      · rw [List.eq_of_mem_replicate h1]; rfl
      · simp only [List.mem_singleton] at h1; rw [h1]; rfl
  | cons l rest2 ih =>
    intro n x hn hx hch hfirst
    cases rest2 with
    | nil =>
      rw [sqLines_singleton n l]
      rw [replicate_succ_append _ (cEmit_pos hn), List.tail_cons]
      by_cases hl : allWs l = true
      · rw [dropEndWs_cons_ws hx ?_]
        · exact List.chain'_singleton _
        · intro w hw
          rcases List.mem_append.mp hw with h1 | h1
          · rw [List.eq_of_mem_replicate h1]; rfl
          · simp only [List.mem_singleton] at h1; rw [h1]; exact hl
      · have hl' : allWs l = false := by simpa using hl
        rw [show x :: (List.replicate (cEmit n - 1) ([] : Str) ++ [l]) =
          (x :: List.replicate (cEmit n - 1) ([] : Str)) ++ [l] from by simp]
        rw [dropEndWs_last_nonws _ hl']
        have hk : cEmit n - 1 = 0 ∨ cEmit n - 1 = 1 := by
          have := cEmit_le_two n; omega
        rcases hk with hk | hk <;> rw [hk]
        · exact List.chain'_cons.mpr ⟨R2_of_left (strip_ne_nil_of_nonWs hx),
            List.chain'_singleton _⟩
        · exact List.chain'_cons.mpr ⟨R2_of_left (strip_ne_nil_of_nonWs hx),
            List.chain'_cons.mpr ⟨R2_of_right (strip_ne_nil_of_nonWs hl'),
              List.chain'_singleton _⟩⟩
    | cons y rest3 =>
      cases l with
      | nil =>
        rw [show sqLines n ([] :: y :: rest3) = sqLines (n + 1) (y :: rest3)
          from rfl]
        refine ih (n + 1) x (by omega) hx (List.Chain'.tail hch) ?_
        intro _ h hh hsh
        simp only [List.head?_cons, Option.mem_def, Option.some.injEq] at hh
        subst hh
        exact ((List.chain'_cons.mp hch).1 ⟨rfl, hsh⟩).2
      | cons a as =>
        rw [show sqLines n ((a :: as) :: y :: rest3) =
          List.replicate (cEmit n) ([] : Str) ++
            (a :: as) :: (sqLines 1 (y :: rest3)).tail from rfl]
        rw [replicate_succ_append _ (cEmit_pos hn), List.tail_cons]
        by_cases hl : allWs (a :: as) = true
        · have hn1 : n = 1 := by
            by_contra hne
            have h2n : 2 ≤ n := by omega
            have := hfirst h2n (a :: as) (by simp) (strip_nil_iff_allWs.mpr hl)
            simp at this
          subst hn1
          have hy : strip y ≠ [] := by
            intro hys
            have h2 := (List.chain'_cons.mp hch).1 ⟨strip_nil_iff_allWs.mpr hl, hys⟩
            simp at h2
          have hyne : y ≠ [] := fun hyn => hy (by rw [hyn]; rfl)
          obtain ⟨b, bs, rfl⟩ := List.exists_cons_of_ne_nil hyne
          have hyw : allWs (b :: bs) = false := by
            by_contra hyw2
            exact hy (strip_nil_iff_allWs.mpr (by simpa using hyw2))
          cases rest3 with
          | nil =>
            show List.Chain' R2 (dropEndWs ([x, a :: as] ++ [b :: bs]))
            rw [dropEndWs_last_nonws _ hyw]
            exact List.chain'_cons.mpr ⟨R2_of_left (strip_ne_nil_of_nonWs hx),
              List.chain'_cons.mpr ⟨R2_of_right hy, List.chain'_singleton _⟩⟩
          | cons z rest4 =>
            have htail : (sqLines 1 ((b :: bs) :: z :: rest4)).tail =
                (b :: bs) :: (sqLines 1 (z :: rest4)).tail := by
              rw [show sqLines 1 ((b :: bs) :: z :: rest4) =
                List.replicate (cEmit 1) ([] : Str) ++
                  (b :: bs) :: (sqLines 1 (z :: rest4)).tail from rfl]
              rfl
            have HA := ih 1 x (le_refl 1) hx (List.Chain'.tail hch)
              (fun h2 => absurd h2 (by omega))
            rw [htail] at HA
            obtain ⟨T', hT'⟩ := dropEndWs_head ((sqLines 1 (z :: rest4)).tail) hyw
            have hBne : dropEndWs ((b :: bs) :: (sqLines 1 (z :: rest4)).tail) ≠ [] := by
              rw [hT']; simp
            rw [show x :: ((b :: bs) :: (sqLines 1 (z :: rest4)).tail) =
              [x] ++ ((b :: bs) :: (sqLines 1 (z :: rest4)).tail) from rfl,
              dropEndWs_append_of_ne _ hBne, hT'] at HA
            show List.Chain' R2 (dropEndWs
              ((x :: (a :: as) :: List.nil) ++
                ((b :: bs) :: (sqLines 1 ((z :: rest4) : List Str)).tail)))
            rw [dropEndWs_append_of_ne _ hBne, hT']
            exact List.chain'_cons.mpr ⟨R2_of_left (strip_ne_nil_of_nonWs hx),
              List.chain'_cons.mpr ⟨R2_of_right hy, (List.chain'_cons.mp HA).2⟩⟩
        · have hl' : allWs (a :: as) = false := by simpa using hl
          have HB := ih 1 (a :: as) (le_refl 1) hl' (List.Chain'.tail hch)
            (fun h2 => absurd h2 (by omega))
          obtain ⟨T', hT'⟩ := dropEndWs_head ((sqLines 1 (y :: rest3)).tail) hl'
          have hBne : dropEndWs ((a :: as) :: (sqLines 1 (y :: rest3)).tail) ≠ [] := by
            rw [hT']; simp
          rw [show (a :: as) :: (sqLines 1 (y :: rest3)).tail =
            [] ++ ((a :: as) :: (sqLines 1 (y :: rest3)).tail) from rfl,
            dropEndWs_append_of_ne _ hBne, hT'] at HB
          rw [show x :: (List.replicate (cEmit n - 1) ([] : Str) ++
              (a :: as) :: (sqLines 1 (y :: rest3)).tail) =
            (x :: List.replicate (cEmit n - 1) ([] : Str)) ++
              ((a :: as) :: (sqLines 1 (y :: rest3)).tail) from by simp]
          rw [dropEndWs_append_of_ne _ hBne, hT']
          have hk : cEmit n - 1 = 0 ∨ cEmit n - 1 = 1 := by
            have := cEmit_le_two n; omega
          rcases hk with hk | hk <;> rw [hk]
          · exact List.chain'_cons.mpr
              ⟨R2_of_left (strip_ne_nil_of_nonWs hx), by simpa using HB⟩
          · exact List.chain'_cons.mpr ⟨R2_of_left (strip_ne_nil_of_nonWs hx),
              List.chain'_cons.mpr ⟨R2_of_right (strip_ne_nil_of_nonWs hl'),
                by simpa using HB⟩⟩

/-- Trimming the collapsed line list of a block sequence that satisfies
`R1` leaves no two adjacent blank lines. -/
theorem sqLines_trim_chain (M : List Str) :
    List.Chain' R1 M → ∀ n, List.Chain' R2 (trimBothWs (sqLines n M)) := by
  induction M with
  | nil =>
    intro _ n
    rw [show sqLines n [] = List.replicate (cEmit n) ([] : Str) ++ [([] : Str)]
      from rfl]
    rw [trimBothWs_all_ws ?_]
    · exact List.chain'_nil
    · intro w hw
      rcases List.mem_append.mp hw with h1 | h1
      · rw [List.eq_of_mem_replicate h1]; rfl
      · simp only [List.mem_singleton] at h1; rw [h1]; rfl
  | cons l rest ih =>
    intro hch n
    cases rest with
    | nil =>
      rw [sqLines_singleton n l]
      by_cases hl : allWs l = true
      · rw [trimBothWs_all_ws ?_]
        · exact List.chain'_nil
        · intro w hw
          rcases List.mem_append.mp hw with h1 | h1
          · rw [List.eq_of_mem_replicate h1]; rfl
          · simp only [List.mem_singleton] at h1; rw [h1]; exact hl
      · have hl' : allWs l = false := by simpa using hl
        unfold trimBothWs
        rw [dropWhile_allWs_append _ (fun w hw => by
          rw [List.eq_of_mem_replicate hw]; rfl)]
        rw [List.dropWhile_cons, if_neg (by simp [hl'])]
        rw [show dropEndWs [l] = [] ++ [l] from dropEndWs_last_nonws [] hl']
        exact List.chain'_singleton _
    | cons y rest3 =>
      cases l with
      | nil =>
        rw [show sqLines n ([] :: y :: rest3) = sqLines (n + 1) (y :: rest3)
          from rfl]
        exact ih (List.Chain'.tail hch) (n + 1)
      | cons a as =>
        rw [show sqLines n ((a :: as) :: y :: rest3) =
          List.replicate (cEmit n) ([] : Str) ++
            (a :: as) :: (sqLines 1 (y :: rest3)).tail from rfl]
        unfold trimBothWs
        rw [dropWhile_allWs_append _ (fun w hw => by
          rw [List.eq_of_mem_replicate hw]; rfl)]
        by_cases hl : allWs (a :: as) = true
        · rw [List.dropWhile_cons, if_pos (by simp [hl])]
          have hy : strip y ≠ [] := by
            intro hys
            have h2 := (List.chain'_cons.mp hch).1 ⟨strip_nil_iff_allWs.mpr hl, hys⟩
            simp at h2
          have hyne : y ≠ [] := fun hyn => hy (by rw [hyn]; rfl)
          obtain ⟨b, bs, rfl⟩ := List.exists_cons_of_ne_nil hyne
          have hyw : allWs (b :: bs) = false := by
            by_contra hyw2
            exact hy (strip_nil_iff_allWs.mpr (by simpa using hyw2))
          cases rest3 with
          | nil =>
            rw [show (sqLines 1 [b :: bs]).tail = [b :: bs] from rfl]
            rw [List.dropWhile_cons, if_neg (by simp [hyw])]
            rw [show dropEndWs [b :: bs] = [] ++ [b :: bs]
              from dropEndWs_last_nonws [] hyw]
            exact List.chain'_singleton _
          | cons z rest4 =>
            rw [show (sqLines 1 ((b :: bs) :: z :: rest4)).tail =
              (b :: bs) :: (sqLines 1 (z :: rest4)).tail from rfl]
            rw [List.dropWhile_cons, if_neg (by simp [hyw])]
            exact sqLines_tail_chain (z :: rest4) 1 (b :: bs) (le_refl 1) hyw
              (List.Chain'.tail (List.Chain'.tail hch))
              (fun h2 => absurd h2 (by omega))
        · have hl' : allWs (a :: as) = false := by simpa using hl
          rw [List.dropWhile_cons, if_neg (by simp [hl'])]
          exact sqLines_tail_chain (y :: rest3) 1 (a :: as) (le_refl 1) hl'
            (List.Chain'.tail hch) (fun h2 => absurd h2 (by omega))

/-! ## Block structure of the single-line If expansion -/

/-- A line fit for a block edge: literally empty or not whitespace-only. -/
def nilOrNonWs (l : Str) : Prop := l = [] ∨ allWs l = false

theorem R1_of_left {a b : Str} (h : strip a ≠ []) : R1 a b :=
  fun hc => absurd hc.1 h

theorem R1_of_right {a b : Str} (h : strip b ≠ []) : R1 a b :=
  fun hc => absurd hc.2 h

/-- The block emitted for one line by step 3 of `split_vb_one_liners`. -/
def vbBlock (rawLine : Str) : List Str :=
  if strip rawLine = [] then [([] : Str)]
  else
    match vbTryIfElse (strip rawLine) with
    | some (cond, thenPart, elsePart) =>
      [lit "If " ++ cond ++ lit " Then", lit "    " ++ thenPart, lit "Else",
       lit "    " ++ elsePart, lit "End If"]
    | none =>
      match vbTryIfThen (strip rawLine) with
      | some (cond, thenPart) =>
        if !(lit "then").isSuffixOf (lowerS (strip rawLine)) then
          [lit "If " ++ cond ++ lit " Then", lit "    " ++ thenPart, lit "End If"]
        else [strip rawLine]
      | none => [strip rawLine]

theorem vbIfExpand_eq (lines : List Str) :
    vbIfExpand lines = lines.flatMap vbBlock := rfl

theorem vbBlock_cases (raw : Str) :
    vbBlock raw = [([] : Str)] ∨
    (∃ c tp ep, vbTryIfElse (strip raw) = some (c, tp, ep) ∧
      vbBlock raw =
        [lit "If " ++ c ++ lit " Then", lit "    " ++ tp, lit "Else",
         lit "    " ++ ep, lit "End If"]) ∨
    (∃ c tp, vbTryIfThen (strip raw) = some (c, tp) ∧
      vbBlock raw =
        [lit "If " ++ c ++ lit " Then", lit "    " ++ tp, lit "End If"]) ∨
    (vbBlock raw = [strip raw] ∧ strip raw ≠ []) := by
  unfold vbBlock
  by_cases ht : strip raw = []
  · rw [if_pos ht]
    exact Or.inl rfl
  · rw [if_neg ht]
    cases he : vbTryIfElse (strip raw) with
    | some v =>
      obtain ⟨c, tp, ep⟩ := v
      exact Or.inr (Or.inl ⟨c, tp, ep, rfl, rfl⟩)
    | none =>
      cases h2 : vbTryIfThen (strip raw) with
      | some v =>
        obtain ⟨c, tp⟩ := v
        by_cases h3 : (!(lit "then").isSuffixOf (lowerS (strip raw))) = true
        · refine Or.inr (Or.inr (Or.inl ⟨c, tp, rfl, ?_⟩))
          show (if (!List.isSuffixOf (lit "then") (lowerS (strip raw))) = true then
              [lit "If " ++ c ++ lit " Then", lit "    " ++ tp, lit "End If"]
            else [strip raw]) =
            [lit "If " ++ c ++ lit " Then", lit "    " ++ tp, lit "End If"]
          rw [if_pos h3]
        · refine Or.inr (Or.inr (Or.inr ⟨?_, ht⟩))
          show (if (!List.isSuffixOf (lit "then") (lowerS (strip raw))) = true then
              [lit "If " ++ c ++ lit " Then", lit "    " ++ tp, lit "End If"]
            else [strip raw]) = [strip raw]
          rw [if_neg h3]
      | none => exact Or.inr (Or.inr (Or.inr ⟨rfl, ht⟩))

theorem strip_nonWs {raw : Str} (h : strip raw ≠ []) : allWs (strip raw) = false := by
  by_contra h2
  have h3 : allWs (strip raw) = true := by simpa using h2
  have h4 := strip_nil_iff_allWs.mpr h3
  rw [strip_eq_self (strip_headOk raw) (strip_lastOk raw)] at h4
  exact h h4

theorem allWs_if_head (c : Str) :
    allWs (lit "If " ++ c ++ lit " Then") = false := by
  rw [allWs, List.all_eq_false]
  refine ⟨'I', ?_, by decide⟩
  exact List.mem_append.mpr (Or.inl (List.mem_append.mpr (Or.inl (by decide))))

theorem vbBlock_ne_nil (raw : Str) : vbBlock raw ≠ [] := by
  rcases vbBlock_cases raw with h | ⟨c, tp, ep, _, h⟩ | ⟨c, tp, _, h⟩ | ⟨h, _⟩ <;>
    rw [h] <;> simp

theorem vbBlock_head (raw : Str) : ∀ h ∈ (vbBlock raw).head?, nilOrNonWs h := by
  rcases vbBlock_cases raw with h | ⟨c, tp, ep, _, h⟩ | ⟨c, tp, _, h⟩ | ⟨h, hne⟩ <;>
    rw [h] <;> intro x hx <;>
    simp only [List.head?_cons, Option.mem_def, Option.some.injEq] at hx <;>
    subst hx
  · exact Or.inl rfl
  · exact Or.inr (allWs_if_head c)
  · exact Or.inr (allWs_if_head c)
  · exact Or.inr (strip_nonWs hne)

theorem vbBlock_last (raw : Str) : ∀ h ∈ (vbBlock raw).getLast?, nilOrNonWs h := by
  rcases vbBlock_cases raw with h | ⟨c, tp, ep, _, h⟩ | ⟨c, tp, _, h⟩ | ⟨h, hne⟩ <;>
    rw [h] <;> intro x hx <;>
    simp only [List.getLast?_cons_cons, List.getLast?_singleton, Option.mem_def,
      Option.some.injEq] at hx <;> subst hx
  · exact Or.inl rfl
  · exact Or.inr (by decide)
  · exact Or.inr (by decide)
  · exact Or.inr (strip_nonWs hne)

theorem vbBlock_chain (raw : Str) : List.Chain' R1 (vbBlock raw) := by
  rcases vbBlock_cases raw with h | ⟨c, tp, ep, _, h⟩ | ⟨c, tp, _, h⟩ | ⟨h, _⟩ <;>
    rw [h]
  · exact List.chain'_singleton _
  · refine List.chain'_cons.mpr ⟨?_, List.chain'_cons.mpr ⟨?_,
      List.chain'_cons.mpr ⟨?_, List.chain'_cons.mpr ⟨?_,
        List.chain'_singleton _⟩⟩⟩⟩
    · exact R1_of_left (strip_ne_nil_of_nonWs (allWs_if_head c))
    · exact R1_of_right (by decide)
    · exact R1_of_left (by decide)
    · exact R1_of_right (by decide)
  · refine List.chain'_cons.mpr ⟨?_, List.chain'_cons.mpr ⟨?_,
      List.chain'_singleton _⟩⟩
    · exact R1_of_left (strip_ne_nil_of_nonWs (allWs_if_head c))
    · exact R1_of_right (by decide)
  · exact List.chain'_singleton _

theorem flatMap_head_nilOrNonWs (lines : List Str) :
    ∀ h ∈ (lines.flatMap vbBlock).head?, nilOrNonWs h := by
  induction lines with
  | nil => intro h hh; simp at hh
  | cons a rest ih =>
    intro h hh
    rw [List.flatMap_cons] at hh
    cases hb : vbBlock a with
    | nil => exact absurd hb (vbBlock_ne_nil a)
    | cons x xs =>
      rw [hb] at hh
      simp only [List.cons_append, List.head?_cons, Option.mem_def,
        Option.some.injEq] at hh
      subst hh
      have h2 := vbBlock_head a
      rw [hb] at h2
      exact h2 x (by simp)

theorem vbIfExpand_chain (lines : List Str) :
    List.Chain' R1 (vbIfExpand lines) := by
  rw [vbIfExpand_eq]
  induction lines with
  | nil => exact List.chain'_nil
  | cons a rest ih =>
    rw [List.flatMap_cons]
    refine List.chain'_append.mpr ⟨vbBlock_chain a, ih, ?_⟩
    intro x hx y hy
    have h1 := vbBlock_last a x hx
    have h2 := flatMap_head_nilOrNonWs rest y hy
    intro ⟨hsx, hsy⟩
    rcases h1 with h1 | h1
    · rcases h2 with h2 | h2
      · exact ⟨h1, h2⟩
      · exact absurd hsy (strip_ne_nil_of_nonWs h2)
    · exact absurd hsx (strip_ne_nil_of_nonWs h1)

/-! ## No entry of the VB pipeline ever contains a newline -/

theorem no_nl_append {a b : Str} (ha : '\n' ∉ a) (hb : '\n' ∉ b) :
    '\n' ∉ a ++ b := by
  intro hm
  rcases List.mem_append.mp hm with h | h
  · exact ha h
  · exact hb h

theorem mem_of_mem_dropWhile {p : Char → Bool} {l : Str} {c : Char}
    (h : c ∈ l.dropWhile p) : c ∈ l := (List.dropWhile_sublist _).subset h

theorem mem_of_mem_segStrip {t : Str} {a b : Nat} {x : Char}
    (h : x ∈ segStrip t a b) : x ∈ t := by
  unfold segStrip at h
  have h1 := mem_of_mem_strip h
  have h2 := (List.take_sublist _ _).subset h1
  exact (List.drop_sublist _ _).subset h2

theorem vbTryIfElse_mem {t c tp ep : Str}
    (h : vbTryIfElse t = some (c, tp, ep)) :
    (∀ x ∈ c, x ∈ t) ∧ (∀ x ∈ tp, x ∈ t) ∧ (∀ x ∈ ep, x ∈ t) := by
  unfold vbTryIfElse at h
  by_cases h1 : vbIfHead t = true
  · rw [if_pos h1] at h
    split at h
    · split at h
      · simp only [Option.some.injEq, Prod.mk.injEq] at h
        obtain ⟨hc, htp, hep⟩ := h
        refine ⟨fun x hx => ?_, fun x hx => ?_, fun x hx => ?_⟩
        · rw [← hc] at hx
          exact mem_of_mem_segStrip hx
        · rw [← htp] at hx
          exact mem_of_mem_segStrip hx
        · rw [← hep] at hx
          exact (List.drop_sublist _ _).subset (mem_of_mem_strip hx)
      · simp at h
    · simp at h
  · rw [if_neg h1] at h
    simp at h

theorem vbTryIfThen_mem {t c tp : Str}
    (h : vbTryIfThen t = some (c, tp)) :
    (∀ x ∈ c, x ∈ t) ∧ (∀ x ∈ tp, x ∈ t) := by
  unfold vbTryIfThen at h
  by_cases h1 : vbIfHead t = true
  · rw [if_pos h1] at h
    split at h
    · simp only [Option.some.injEq, Prod.mk.injEq] at h
      obtain ⟨hc, htp⟩ := h
      refine ⟨fun x hx => ?_, fun x hx => ?_⟩
      · rw [← hc] at hx
        exact mem_of_mem_segStrip hx
      · rw [← htp] at hx
        exact (List.drop_sublist _ _).subset (mem_of_mem_strip hx)
    · simp at h
  · rw [if_neg h1] at h
    simp at h

theorem vbBlock_no_nl {raw : Str} (hraw : '\n' ∉ raw) :
    ∀ e ∈ vbBlock raw, '\n' ∉ e := by
  have hstr : '\n' ∉ strip raw := fun hm => hraw (mem_of_mem_strip hm)
  rcases vbBlock_cases raw with h | ⟨c, tp, ep, hsome, h⟩ | ⟨c, tp, hsome, h⟩ |
      ⟨h, _⟩ <;> rw [h] <;> intro e he
  · simp only [List.mem_singleton] at he
    subst he
    simp
  · obtain ⟨hmc, hmtp, hmep⟩ := vbTryIfElse_mem hsome
    simp only [List.mem_cons, List.not_mem_nil, or_false] at he
    rcases he with rfl | rfl | rfl | rfl | rfl
    · exact no_nl_append (no_nl_append (by decide) (fun hm => hstr (hmc _ hm)))
        (by decide)
    · exact no_nl_append (by decide) (fun hm => hstr (hmtp _ hm))
    · decide
    · exact no_nl_append (by decide) (fun hm => hstr (hmep _ hm))
    · decide
  · obtain ⟨hmc, hmtp⟩ := vbTryIfThen_mem hsome
    simp only [List.mem_cons, List.not_mem_nil, or_false] at he
    rcases he with rfl | rfl | rfl
    · exact no_nl_append (no_nl_append (by decide) (fun hm => hstr (hmc _ hm)))
        (by decide)
    · exact no_nl_append (by decide) (fun hm => hstr (hmtp _ hm))
    · decide
  · simp only [List.mem_singleton] at he
    subst he
    exact hstr

theorem vbIfExpand_no_nl {lines : List Str} (hl : ∀ l ∈ lines, '\n' ∉ l) :
    ∀ e ∈ vbIfExpand lines, '\n' ∉ e := by
  rw [vbIfExpand_eq]
  intro e he
  obtain ⟨raw, hraw, he2⟩ := List.mem_flatMap.mp he
  exact vbBlock_no_nl (hl raw hraw) e he2

theorem mem_of_mem_dropCont {b : Str} {c : Char} (h : c ∈ dropCont b) :
    c ∈ b ∨ c = ' ' := by
  unfold dropCont at h
  rcases List.mem_append.mp h with h1 | h1
  · left
    have h2 := List.mem_reverse.mp h1
    have h3 := mem_of_mem_dropWhile h2
    have h4 := (List.drop_sublist _ _).subset h3
    have h5 := mem_of_mem_dropWhile h4
    exact List.mem_reverse.mp h5
  · right
    simpa using h1

theorem vbJoinCont_no_nl (lines : List Str) : ∀ (buf : Str), '\n' ∉ buf →
    (∀ l ∈ lines, '\n' ∉ l) → ∀ e ∈ vbJoinCont buf lines, '\n' ∉ e := by
  induction lines with
  | nil =>
    intro buf hbuf _ e he
    rw [show vbJoinCont buf [] = (if buf ≠ [] then [buf] else []) from rfl] at he
    by_cases hb : buf ≠ []
    · rw [if_pos hb] at he
      simp only [List.mem_singleton] at he
      subst he
      exact hbuf
    · rw [if_neg hb] at he
      simp at he
  | cons raw rest ih =>
    intro buf hbuf hl e he
    have hline : '\n' ∉ rstrip raw := fun hm =>
      hl raw (List.mem_cons_self _ _) (mem_of_mem_rstrip hm)
    have hrest : ∀ l ∈ rest, '\n' ∉ l := fun l h2 => hl l (List.mem_cons_of_mem _ h2)
    have hbuf2 : '\n' ∉ (if buf ≠ [] then buf ++ lstrip (rstrip raw)
        else rstrip raw) := by
      by_cases hb : buf ≠ []
      · rw [if_pos hb]
        exact no_nl_append hbuf (fun hm => hline (mem_of_mem_lstrip hm))
      · rw [if_neg hb]
        exact hline
    rw [show vbJoinCont buf (raw :: rest) =
      (if endsCont (if buf ≠ [] then buf ++ lstrip (rstrip raw) else rstrip raw)
        then vbJoinCont (dropCont (if buf ≠ [] then buf ++ lstrip (rstrip raw)
          else rstrip raw)) rest
        else (if buf ≠ [] then buf ++ lstrip (rstrip raw) else rstrip raw) ::
          vbJoinCont [] rest) from rfl] at he
    by_cases hec : endsCont (if buf ≠ [] then buf ++ lstrip (rstrip raw)
        else rstrip raw) = true
    · rw [if_pos hec] at he
      refine ih _ ?_ hrest e he
      intro hm
      rcases mem_of_mem_dropCont hm with h1 | h1
      · exact hbuf2 h1
      · simp at h1
    · rw [if_neg hec] at he
      rcases List.mem_cons.mp he with rfl | h1
      · exact hbuf2
      · exact ih [] (by simp) hrest e h1

theorem mem_strip_opt {z : Str} {e : Str}
    (he : e ∈ (if strip z ≠ [] then [strip z] else [])) (hz : '\n' ∉ z) :
    '\n' ∉ e := by
  by_cases h : strip z ≠ []
  · rw [if_pos h] at he
    simp only [List.mem_singleton] at he
    subst he
    exact fun hm => hz (mem_of_mem_strip hm)
  · rw [if_neg h] at he
    simp at he

theorem vbSplitColonsAux_no_nl (fuel : Nat) : ∀ (inS : Bool) (cur rem : Str),
    '\n' ∉ cur → '\n' ∉ rem →
    ∀ e ∈ vbSplitColonsAux inS cur fuel rem, '\n' ∉ e := by
  induction fuel with
  | zero =>
    intro inS cur rem hcur hrem e he
    unfold vbSplitColonsAux at he
    split at he
    · exact mem_strip_opt he hcur
    · exact mem_strip_opt he (no_nl_append hcur hrem)
    · omega
    · omega
  | succ f ih =>
    intro inS cur rem hcur hrem e he
    unfold vbSplitColonsAux at he
    split at he
    · exact mem_strip_opt he hcur
    · omega
    · rename_i fl rs heq2
      have hffl : fl = f := by omega
      subst hffl
      have hrs : '\n' ∉ rs := fun hm => hrem (List.mem_cons_of_mem _ hm)
      split at he
      · split at he
        · rename_i rest2
          exact ih true (cur ++ ['"', '"']) rest2 (no_nl_append hcur (by decide))
            (fun hm => hrs (List.mem_cons_of_mem _ hm)) e he
        · exact ih false (cur ++ ['"']) rs (no_nl_append hcur (by decide)) hrs e he
      · exact ih true (cur ++ ['"']) rs (no_nl_append hcur (by decide)) hrs e he
    · rename_i fl cc rs hqq heq2
      have hffl : fl = f := by omega
      subst hffl
      have hrs : '\n' ∉ rs := fun hm => hrem (List.mem_cons_of_mem _ hm)
      have hcc : '\n' ∉ cur ++ [cc] := by
        intro hm
        rcases List.mem_append.mp hm with h1 | h1
        · exact hcur h1
        · simp only [List.mem_singleton] at h1
          refine hrem ?_
          rw [h1]
          exact List.mem_cons_self _ _
      split at he
      · rcases List.mem_append.mp he with h1 | h1
        · exact mem_strip_opt h1 hcur
        · exact ih inS [] _ (by simp)
            (fun hm => hrs (mem_of_mem_dropWhile hm)) e h1
      · exact ih inS (cur ++ [cc]) rs hcc hrs e he

theorem split_colons_no_nl {line : Str} (h : '\n' ∉ line) :
    ∀ e ∈ split_colons_outside_strings line, '\n' ∉ e :=
  vbSplitColonsAux_no_nl line.length false [] line (by simp) h

theorem vbColonPass_no_nl {lines : List Str} (hl : ∀ l ∈ lines, '\n' ∉ l) :
    ∀ e ∈ vbColonPass lines, '\n' ∉ e := by
  intro e he
  obtain ⟨raw, hraw, he2⟩ := List.mem_flatMap.mp he
  have he3 : e ∈ (if strip raw = [] then [([] : Str)]
      else split_colons_outside_strings (strip raw)) := he2
  by_cases hr : strip raw = []
  · rw [if_pos hr] at he3
    simp only [List.mem_singleton] at he3
    subst he3
    simp
  · rw [if_neg hr] at he3
    exact split_colons_no_nl (fun hm => hl raw hraw (mem_of_mem_strip hm)) e he3

theorem vbSplitMidlineAux_no_nl (fuel : Nat) : ∀ (inS : Bool) (cur rem : Str),
    '\n' ∉ cur → '\n' ∉ rem →
    ∀ e ∈ vbSplitMidlineAux inS cur fuel rem, '\n' ∉ e := by
  induction fuel with
  | zero =>
    intro inS cur rem hcur hrem e he
    unfold vbSplitMidlineAux at he
    split at he
    · exact mem_strip_opt he hcur
    · exact mem_strip_opt he (no_nl_append hcur hrem)
    · omega
    · omega
  | succ f ih =>
    intro inS cur rem hcur hrem e he
    unfold vbSplitMidlineAux at he
    split at he
    · exact mem_strip_opt he hcur
    · omega
    · rename_i fl rs heq2
      have hffl : fl = f := by omega
      subst hffl
      have hrs : '\n' ∉ rs := fun hm => hrem (List.mem_cons_of_mem _ hm)
      split at he
      · split at he
        · rename_i rest2
          exact ih true (cur ++ ['"', '"']) rest2 (no_nl_append hcur (by decide))
            (fun hm => hrs (List.mem_cons_of_mem _ hm)) e he
        · exact ih false (cur ++ ['"']) rs (no_nl_append hcur (by decide)) hrs e he
      · exact ih true (cur ++ ['"']) rs (no_nl_append hcur (by decide)) hrs e he
    · rename_i fl cc rs hqq heq2
      have hffl : fl = f := by omega
      subst hffl
      have hrs : '\n' ∉ rs := fun hm => hrem (List.mem_cons_of_mem _ hm)
      have hccs : '\n' ∉ ([cc] : Str) := by
        intro hm
        simp only [List.mem_singleton] at hm
        refine hrem ?_
        rw [hm]
        exact List.mem_cons_self _ _
      have hcc : '\n' ∉ cur ++ [cc] := no_nl_append hcur hccs
      split at he
      · rcases List.mem_append.mp he with h1 | h1
        · exact mem_strip_opt h1 hcur
        · exact ih inS [cc] rs hccs hrs e h1
      · exact ih inS (cur ++ [cc]) rs hcc hrs e he

theorem split_midline_no_nl {line : Str} (h : '\n' ∉ line) :
    ∀ e ∈ split_midline_vb_statements line, '\n' ∉ e :=
  vbSplitMidlineAux_no_nl line.length false [] line (by simp) h

theorem vbMidlinePass_no_nl {lines : List Str} (hl : ∀ l ∈ lines, '\n' ∉ l) :
    ∀ e ∈ vbMidlinePass lines, '\n' ∉ e := by
  intro e he
  obtain ⟨raw, hraw, he2⟩ := List.mem_flatMap.mp he
  have he3 : e ∈ (if strip raw = [] then [([] : Str)]
      else split_midline_vb_statements (strip raw)) := he2
  by_cases hr : strip raw = []
  · rw [if_pos hr] at he3
    simp only [List.mem_singleton] at he3
    subst he3
    simp
  · rw [if_neg hr] at he3
    exact split_midline_no_nl (fun hm => hl raw hraw (mem_of_mem_strip hm)) e he3

/-! ## The VB block formatter and the assembled blank-line invariant -/

theorem vbFold_head (indent : Nat) (raw : Str) (rest : List Str) :
    ∃ y n2, vbFold indent (raw :: rest) = y :: vbFold n2 rest ∧
      (y = [] ↔ strip raw = []) ∧
      (y = [] ∨ ∃ k, y = List.replicate k ' ' ++ strip raw) := by
  simp only [vbFold]
  split
  · rename_i h0
    exact ⟨[], indent, rfl, by simp [h0], Or.inl rfl⟩
  · rename_i h0
    have hiff : ∀ k : Nat,
        (List.replicate k ' ' ++ strip raw = [] ↔ strip raw = []) := by
      intro k
      constructor
      · intro hh
        exact (List.append_eq_nil.mp hh).2
      · intro hh
        exact absurd hh h0
    split
    · exact ⟨_, _, rfl, hiff _, Or.inr ⟨_, rfl⟩⟩
    · exact ⟨_, _, rfl, hiff _, Or.inr ⟨_, rfl⟩⟩

theorem vbFold_no_nl (lines : List Str) (hl : ∀ l ∈ lines, '\n' ∉ l) :
    ∀ n, ∀ e ∈ vbFold n lines, '\n' ∉ e := by
  induction lines with
  | nil => intro n e he; simp [vbFold] at he
  | cons raw rest ih =>
    intro n e he
    have hrest : ∀ l ∈ rest, '\n' ∉ l := fun l h2 => hl l (List.mem_cons_of_mem _ h2)
    obtain ⟨y, n2, hey, _, hshape⟩ := vbFold_head n raw rest
    rw [hey] at he
    rcases List.mem_cons.mp he with rfl | h1
    · rcases hshape with rfl | ⟨k, rfl⟩
      · simp
      · refine no_nl_append ?_ ?_
        · intro hm
          have := List.eq_of_mem_replicate hm
          exact absurd this (by decide)
        · exact fun hm => hl raw (List.mem_cons_self _ _) (mem_of_mem_strip hm)
    · exact ih hrest n2 e h1

theorem vbFold_chain (lines : List Str) : List.Chain' R2 lines →
    ∀ n, List.Chain' notBothEmpty (vbFold n lines) := by
  induction lines with
  | nil => intro _ n; simp [vbFold]
  | cons raw rest ih =>
    intro hch n
    obtain ⟨y, n2, hey, hiff, _⟩ := vbFold_head n raw rest
    rw [hey]
    refine List.chain'_cons'.mpr ⟨?_, ih (List.Chain'.tail hch) n2⟩
    intro z hz
    intro ⟨hy, hz2⟩
    have hsr : strip raw = [] := hiff.mp hy
    cases rest with
    | nil => simp [vbFold] at hz
    | cons r2 rest2 =>
      obtain ⟨y2, n3, hey2, hiff2, _⟩ := vbFold_head n2 r2 rest2
      rw [hey2] at hz
      simp only [List.head?_cons, Option.mem_def, Option.some.injEq] at hz
      subst hz
      have hsr2 : strip r2 = [] := hiff2.mp hz2
      exact (List.chain'_cons.mp hch).1 ⟨hsr, hsr2⟩

theorem tabTo4_append (a b : Str) : tabTo4 (a ++ b) = tabTo4 a ++ tabTo4 b := by
  simp [tabTo4]

theorem tabTo4_joinNl (L : List Str) : tabTo4 (joinNl L) = joinNl (L.map tabTo4) := by
  induction L with
  | nil => rfl
  | cons l ls ih =>
    cases ls with
    | nil => rfl
    | cons x xs =>
      simp only [List.map_cons]
      rw [show joinNl (l :: x :: xs) = l ++ '\n' :: joinNl (x :: xs) from rfl]
      rw [show joinNl (tabTo4 l :: tabTo4 x :: xs.map tabTo4) =
        tabTo4 l ++ '\n' :: joinNl (tabTo4 x :: xs.map tabTo4) from rfl]
      rw [tabTo4_append]
      rw [show tabTo4 ('\n' :: joinNl (x :: xs)) =
        '\n' :: tabTo4 (joinNl (x :: xs)) from rfl]
      rw [ih]
      simp only [List.map_cons]

theorem mem_of_mem_tabTo4 {l : Str} {x : Char} (h : x ∈ tabTo4 l) :
    x = ' ' ∨ x ∈ l := by
  unfold tabTo4 at h
  obtain ⟨c, hc, hx⟩ := List.mem_flatMap.mp h
  by_cases hct : c = '\t'
  · rw [if_pos hct] at hx
    left
    rw [show lit "    " = [' ', ' ', ' ', ' '] from by decide] at hx
    simpa using hx
  · rw [if_neg hct] at hx
    right
    simp only [List.mem_singleton] at hx
    subst hx
    exact hc

theorem no_nl_tabTo4 {l : Str} (h : '\n' ∉ l) : '\n' ∉ tabTo4 l := by
  intro hm
  rcases mem_of_mem_tabTo4 hm with h1 | h1
  · exact absurd h1 (by decide)
  · exact h h1

theorem allWs_tabTo4 (l : Str) : allWs (tabTo4 l) = allWs l := by
  cases ha : allWs l
  · rw [allWs, List.all_eq_false] at ha
    obtain ⟨c, hcl, hcw⟩ := ha
    rw [allWs, List.all_eq_false]
    refine ⟨c, ?_, hcw⟩
    unfold tabTo4
    refine List.mem_flatMap.mpr ⟨c, hcl, ?_⟩
    rw [if_neg ?_]
    · simp
    · intro hct
      subst hct
      exact hcw (by decide)
  · rw [allWs, List.all_eq_true] at ha
    rw [allWs, List.all_eq_true]
    intro x hx
    rcases mem_of_mem_tabTo4 hx with rfl | hxl
    · decide
    · exact ha x hxl

theorem splitNl_tabTo4 (v : Str) : splitNl (tabTo4 v) = (splitNl v).map tabTo4 := by
  conv_lhs => rw [← joinNl_splitNl v]
  rw [tabTo4_joinNl]
  refine splitNl_joinNl ?_ ?_
  · simp [splitNl_ne_nil v]
  · intro l hl
    obtain ⟨l0, hl0, rfl⟩ := List.mem_map.mp hl
    exact no_nl_tabTo4 (no_nl_of_mem_splitNl hl0)

theorem chainR2_map_tabTo4 {ls : List Str} (h : List.Chain' R2 ls) :
    List.Chain' R2 (ls.map tabTo4) := by
  rw [List.chain'_map]
  refine List.Chain'.imp ?_ h
  intro a b hab
  intro ⟨h1, h2⟩
  refine hab ⟨?_, ?_⟩
  · exact strip_nil_iff_allWs.mpr
      (by rw [← allWs_tabTo4]; exact strip_nil_iff_allWs.mp h1)
  · exact strip_nil_iff_allWs.mpr
      (by rw [← allWs_tabTo4]; exact strip_nil_iff_allWs.mp h2)

theorem svb_chainR2 (u : Str) :
    List.Chain' R2 (splitNl (split_vb_one_liners u)) := by
  unfold split_vb_one_liners
  by_cases hu : u = []
  · rw [if_pos hu]
    rw [show splitNl ([] : Str) = [([] : Str)] from rfl]
    exact List.chain'_singleton _
  · rw [if_neg hu]
    have hnl : ∀ e ∈ vbIfExpand (vbMidlinePass (vbColonPass
        (vbJoinCont [] (splitNl ((replCRLF u).map crToNl))))), '\n' ∉ e := by
      refine vbIfExpand_no_nl ?_
      refine vbMidlinePass_no_nl ?_
      refine vbColonPass_no_nl ?_
      refine vbJoinCont_no_nl _ [] (by simp) ?_
      intro l hlm
      exact no_nl_of_mem_splitNl hlm
    apply chainR2_strip
    rw [show collapseNl (joinNl (vbIfExpand (vbMidlinePass (vbColonPass
        (vbJoinCont [] (splitNl ((replCRLF u).map crToNl))))))) =
      collapseNlAux 0 (joinNl (vbIfExpand (vbMidlinePass (vbColonPass
        (vbJoinCont [] (splitNl ((replCRLF u).map crToNl))))))) from rfl]
    rw [splitNl_collapse_joinNl _ 0 hnl]
    exact sqLines_trim_chain _ (vbIfExpand_chain _) 0

theorem vb_no_nnn (code : Str) :
    containsSeq (lit "\n\n\n") (pretty_print_vb_blocks code) = false := by
  rw [show pretty_print_vb_blocks code =
    (if split_vb_one_liners (normalize_code code) = [] then []
     else strip (joinNl (vbFold 0 (splitNl (tabTo4
       (split_vb_one_liners (normalize_code code))))))) from rfl]
  by_cases h0 : split_vb_one_liners (normalize_code code) = []
  · rw [if_pos h0]
    decide
  · rw [if_neg h0]
    by_contra hx
    rw [Bool.not_eq_false] at hx
    have h1 := containsSeq_strip hx
    have hlines : ∀ l ∈ splitNl (tabTo4 (split_vb_one_liners
        (normalize_code code))), '\n' ∉ l := fun l hl => no_nl_of_mem_splitNl hl
    have hchain : List.Chain' R2
        (splitNl (tabTo4 (split_vb_one_liners (normalize_code code)))) := by
      rw [splitNl_tabTo4]
      exact chainR2_map_tabTo4 (svb_chainR2 _)
    have h2 := nl3_joinNl (M := vbFold 0 (splitNl (tabTo4
        (split_vb_one_liners (normalize_code code)))))
      (fun l hl => vbFold_no_nl _ hlines 0 l hl) (vbFold_chain _ hchain 0)
    rw [h1] at h2
    simp at h2

theorem headOk_cs (c : Str) : headOk (pretty_print_csharp_braces c) = true := by
  rw [show pretty_print_csharp_braces c =
    (if split_csharp_one_liners c = [] then []
     else strip (joinNl ((ppCsLoop 0 []
       (splitNl (tabTo4 (split_csharp_one_liners c)))).map renderCs))) from rfl]
  by_cases h : split_csharp_one_liners c = []
  · rw [if_pos h]; rfl
  · rw [if_neg h]; exact strip_headOk _

theorem lastOk_cs (c : Str) : lastOk (pretty_print_csharp_braces c) = true := by
  rw [show pretty_print_csharp_braces c =
    (if split_csharp_one_liners c = [] then []
     else strip (joinNl ((ppCsLoop 0 []
       (splitNl (tabTo4 (split_csharp_one_liners c)))).map renderCs))) from rfl]
  by_cases h : split_csharp_one_liners c = []
  · rw [if_pos h]; rfl
  · rw [if_neg h]; exact strip_lastOk _

theorem headOk_vb (c : Str) : headOk (pretty_print_vb_blocks c) = true := by
  rw [show pretty_print_vb_blocks c =
    (if split_vb_one_liners (normalize_code c) = [] then []
     else strip (joinNl (vbFold 0 (splitNl (tabTo4
       (split_vb_one_liners (normalize_code c))))))) from rfl]
  by_cases h : split_vb_one_liners (normalize_code c) = []
  · rw [if_pos h]; rfl
  · rw [if_neg h]; exact strip_headOk _

theorem lastOk_vb (c : Str) : lastOk (pretty_print_vb_blocks c) = true := by
  rw [show pretty_print_vb_blocks c =
    (if split_vb_one_liners (normalize_code c) = [] then []
     else strip (joinNl (vbFold 0 (splitNl (tabTo4
       (split_vb_one_liners (normalize_code c))))))) from rfl]
  by_cases h : split_vb_one_liners (normalize_code c) = []
  · rw [if_pos h]; rfl
  · rw [if_neg h]; exact strip_lastOk _

/-- C9: on every formatting path — C#, VB, unknown-language whitespace
normalization, and the empty-input shortcut — the returned PrettyCode has
no leading or trailing whitespace (its first and last characters, if any,
are non-whitespace), and it never contains two consecutive empty lines:
three newlines in a row never occur in the output. -/
theorem claim_C9_pretty_blank_lines (code language : Str) :
    headOk (pretty_print_code code language) = true ∧
    lastOk (pretty_print_code code language) = true ∧
    containsSeq (lit "\n\n\n") (pretty_print_code code language) = false := by
  rw [show pretty_print_code code language =
    (if normalize_code code = [] then []
     else if normalize_language language = lit "C#" then
       pretty_print_csharp_braces (normalize_code code)
     else if normalize_language language = lit "VB" then
       pretty_print_vb_blocks (normalize_code code)
     else normalize_whitespace (normalize_code code)) from rfl]
  by_cases h0 : normalize_code code = []
  · rw [if_pos h0]
    exact ⟨rfl, rfl, by decide⟩
  · rw [if_neg h0]
    by_cases hc : normalize_language language = lit "C#"
    · rw [if_pos hc]
      exact ⟨headOk_cs _, lastOk_cs _, cs_no_nnn _⟩
    · rw [if_neg hc]
      by_cases hv : normalize_language language = lit "VB"
      · rw [if_pos hv]
        exact ⟨headOk_vb _, lastOk_vb _, vb_no_nnn _⟩
      · rw [if_neg hv]
        exact ⟨strip_headOk _, strip_lastOk _, nw_no_nnn _⟩

end BP
